import Mathlib

/-!
# jules: the concurrent orchestrator `run` and the entry point `main`

Shallow embedding of `cmd/jules/main.go`.

* `run` starts one goroutine per project.  It is embedded as an interleaving
  transition system: a state holds the status board, the error map, the
  mutex, one control point per goroutine and the control point of the main
  goroutine; `step` executes one statement of one thread, chosen by the
  scheduler.  Control points are named after the source line they stand at and
  carry the local variables that are live there.
* A ghost `trace` records every call that a thread makes, in execution order.
* `GetCommand`, `ExecuteCommand`, `ReadConfig`, `strings.ToLower` and the
  `Config` payload are declared outside `main.go`; they are parameters.
-/

namespace Jules

/-- Go `error` values, identified with the text returned by `Error()`. -/
abbrev GoError := String

/-- Collaborators called by the goroutines of `run`.  `ExecuteCommand` returns
the final contents of the buffer it was handed together with its error
(`none` is `nil`). -/
structure Collab (Config Cmd : Type) where
  GetCommand : String → String → Config → Except GoError Cmd
  ExecuteCommand : String → String → Cmd → String × Option GoError

/-- Modelled from the spec: the status board is the imported package
`multistatus`, whose code is not in `main.go`.  An entry is pending when
`workerSet.Add` creates it, `Fail` and `Done` set its state, and
`workerSet.Print` returns once no entry is pending (section 4.1 of the spec and
the comment of line 66). -/
inductive Status
  | pending
  | done
  | failed
  deriving DecidableEq, Repr

/-- One status board entry: the label given to `workerSet.Add` and its state. -/
structure Entry where
  label : String
  status : Status
  deriving DecidableEq, Repr

/-- Thread identifiers: the goroutine running `run`, or the goroutine started
for the project at position `i` of the project list. -/
inductive Tid
  | main
  | worker (i : Nat)
  deriving DecidableEq, Repr

/-- Calls observable in an execution, recorded in the ghost trace. -/
inductive Event
  | add (i : Nat) (label : String)
  | go (i : Nat) (project : String)
  | print
  | getCommand (i : Nat)
  | executeCommand (i : Nat)
  | lock (t : Tid)
  | unlock (t : Tid)
  | store (t : Tid) (project : String) (err : GoError)
  | fail (i : Nat)
  | done (i : Nat)
  | log (t : Tid) (text : String)
  | ret
  | exit (code : Nat)
  deriving DecidableEq, Repr

/-- Thread that performs an event. -/
def Event.tid : Event → Tid
  | .add _ _ => .main
  | .go _ _ => .main
  | .print => .main
  | .getCommand i => .worker i
  | .executeCommand i => .worker i
  | .lock t => t
  | .unlock t => t
  | .store t _ _ => t
  | .fail i => .worker i
  | .done i => .worker i
  | .log t _ => t
  | .ret => .main
  | .exit _ => .main

/-- Control points of the goroutine body (lines 40-64), with the live locals. -/
inductive WPc (Cmd : Type)
  | l41
  | l44 (err : GoError)
  | l45 (err : GoError)
  | l46
  | l47
  | l52 (cmd : Cmd)
  | l55 (buff : String) (err : GoError)
  | l56 (buff : String) (err : GoError)
  | l57 (buff : String)
  | l58 (buff : String)
  | l59 (buff : String)
  | l63
  | ret
  deriving DecidableEq, Repr

/-- One goroutine: its `project` argument and its control point.  Its `w`
argument is the status board entry at the goroutine's own index. -/
structure Worker (Cmd : Type) where
  project : String
  pc : WPc Cmd
  deriving DecidableEq, Repr

/-- Control points of the main goroutine inside `run` (lines 38-76), then back
in `main` (line 127), then the terminated process. -/
inductive MPc
  | l38 (todo : List String)
  | l67
  | l68
  | l69
  | l70 (rest : List (String × GoError))
  | l73
  | l75
  | l76
  | l127
  | exited (code : Nat)
  deriving DecidableEq, Repr

/-- Exit status of the process, once it has terminated. -/
def MPc.exitCode : MPc → Option Nat
  | .exited code => some code
  | _ => none

/-- State of the process while `run` executes. -/
structure State (Cmd : Type) where
  entries : List Entry
  errors : List (String × GoError)
  mutex : Option Tid
  workers : List (Worker Cmd)
  mpc : MPc
  trace : List Event
  deriving DecidableEq, Repr

/-- Go map assignment `m[k] = v`: overwrite the value of an existing key, else
add the key. -/
def mapSet : List (String × GoError) → String → GoError → List (String × GoError)
  | [], k, v => [(k, v)]
  | (k', v') :: m, k, v => if k' = k then (k', v) :: m else (k', v') :: mapSet m k v

/-- Go map lookup `m[k]`. -/
def mapGet : List (String × GoError) → String → Option GoError
  | [], _ => none
  | (k', v') :: m, k => if k' = k then some v' else mapGet m k

/-- Label of a status board entry: `fmt.Sprintf("Project: %s", p)`. -/
def entryLabel (p : String) : String := "Project: " ++ p

/-- Message of `log.Printf("Error with project %s:\n%s", project, err.Error())`. -/
def errorLine (kv : String × GoError) : String :=
  "Error with project " ++ kv.1 ++ ":\n" ++ kv.2

/-- Calls `w.Fail()` or `w.Done()` on entry `i`. -/
def setStatus (es : List Entry) (i : Nat) (st : Status) : List Entry :=
  match es[i]? with
  | some e => es.set i { e with status := st }
  | none => es

/-- Moves goroutine `i` to control point `pc` and records its events. -/
def State.advance {Cmd : Type} (s : State Cmd) (i : Nat) (w : Worker Cmd) (pc : WPc Cmd)
    (evs : List Event) : State Cmd :=
  { s with workers := s.workers.set i { w with pc := pc }, trace := s.trace ++ evs }

/-- One statement of goroutine `i`.  `none`: the goroutine does not exist, has
returned, is blocked on the mutex, or the process has terminated. -/
def stepWorker {Config Cmd : Type} (c : Collab Config Cmd) (stage : String) (conf : Config)
    (s : State Cmd) (i : Nat) : Option (State Cmd) :=
  if s.mpc.exitCode.isSome then none else
  match s.workers[i]? with
  | none => none
  | some w =>
    match w.pc with
    | .l41 =>
      match c.GetCommand stage w.project conf with
      | .error err => some (s.advance i w (.l44 err) [.getCommand i])
      | .ok cmd => some (s.advance i w (.l52 cmd) [.getCommand i])
    | .l44 err =>
      if s.mutex = none then
        some ({ s with mutex := some (.worker i) }.advance i w (.l45 err) [.lock (.worker i)])
      else none
    | .l45 err =>
      some ({ s with errors := mapSet s.errors w.project err }.advance i w .l46
        [.store (.worker i) w.project err])
    | .l46 => some ({ s with mutex := none }.advance i w .l47 [.unlock (.worker i)])
    | .l47 =>
      some ({ s with entries := setStatus s.entries i .failed }.advance i w .ret [.fail i])
    | .l52 cmd =>
      match c.ExecuteCommand stage w.project cmd with
      | (buff, some err) => some (s.advance i w (.l55 buff err) [.executeCommand i])
      | (_, none) => some (s.advance i w .l63 [.executeCommand i])
    | .l55 buff err =>
      if s.mutex = none then
        some ({ s with mutex := some (.worker i) }.advance i w (.l56 buff err)
          [.lock (.worker i)])
      else none
    | .l56 buff err =>
      some ({ s with errors := mapSet s.errors w.project err }.advance i w (.l57 buff)
        [.store (.worker i) w.project err])
    | .l57 buff =>
      some ({ s with mutex := none }.advance i w (.l58 buff) [.unlock (.worker i)])
    | .l58 buff =>
      some ({ s with entries := setStatus s.entries i .failed }.advance i w (.l59 buff)
        [.fail i])
    | .l59 buff => some (s.advance i w .ret [.log (.worker i) buff])
    | .l63 =>
      some ({ s with entries := setStatus s.entries i .done }.advance i w .ret [.done i])
    | .ret => none

/-- One statement of the main goroutine.  `k` is the runtime's choice of the
next map entry visited by `range errors` (line 70).  Line 38-40 (`Add`, then
`go`) is one step: both touch only the board and the goroutine list, which no
other thread reads.  Line 67 (`workerSet.Print`) is enabled once no entry is
pending. -/
def stepMain {Cmd : Type} (s : State Cmd) (k : Nat) : Option (State Cmd) :=
  match s.mpc with
  | .l38 [] => some { s with mpc := .l67 }
  | .l38 (p :: todo) =>
    some { s with
      entries := s.entries ++ [⟨entryLabel p, .pending⟩]
      workers := s.workers ++ [⟨p, .l41⟩]
      mpc := .l38 todo
      trace := s.trace ++ [.add s.workers.length (entryLabel p), .go s.workers.length p] }
  | .l67 =>
    if s.entries.all (fun e => decide (e.status ≠ .pending)) then
      some { s with mpc := .l68, trace := s.trace ++ [.print] }
    else none
  | .l68 =>
    if s.mutex = none then
      some { s with mutex := some .main, mpc := .l69, trace := s.trace ++ [.lock .main] }
    else none
  | .l69 =>
    if s.errors.length ≠ 0 then some { s with mpc := .l70 s.errors }
    else some { s with mpc := .l75 }
  | .l70 [] => some { s with mpc := .l73 }
  | .l70 (kv :: rest) =>
    let j := k % (kv :: rest).length
    some { s with
      mpc := .l70 ((kv :: rest).eraseIdx j)
      trace := s.trace ++ [.log .main (errorLine ((kv :: rest).getD j kv))] }
  | .l73 => some { s with mpc := .exited 1, trace := s.trace ++ [.exit 1] }
  | .l75 => some { s with mutex := none, mpc := .l76, trace := s.trace ++ [.unlock .main] }
  | .l76 => some { s with mpc := .l127, trace := s.trace ++ [.ret] }
  | .l127 => some { s with mpc := .exited 0, trace := s.trace ++ [.exit 0] }
  | .exited _ => none

/-- Scheduler choices: run the main goroutine (with its map-iteration choice)
or the goroutine of index `i`. -/
inductive Action
  | main (k : Nat)
  | worker (i : Nat)
  deriving DecidableEq, Repr

/-- One step of the process under a scheduler choice. -/
def step {Config Cmd : Type} (c : Collab Config Cmd) (stage : String) (conf : Config)
    (s : State Cmd) : Action → Option (State Cmd)
  | .main k => stepMain s k
  | .worker i => stepWorker c stage conf s i

/-- Runs a whole schedule; `none` when a chosen thread is not enabled. -/
def steps {Config Cmd : Type} (c : Collab Config Cmd) (stage : String) (conf : Config) :
    State Cmd → List Action → Option (State Cmd)
  | s, [] => some s
  | s, a :: as =>
    match step c stage conf s a with
    | some s' => steps c stage conf s' as
    | none => none

/-- State on entry to `run` (lines 35-37): empty board, empty error map,
unlocked mutex, no goroutine, the loop of line 38 about to start. -/
def initState {Cmd : Type} (projects : List String) : State Cmd :=
  { entries := [], errors := [], mutex := none, workers := [], mpc := .l38 projects, trace := [] }

/-- States reachable from the entry of `run` under some schedule. -/
inductive Reachable {Config Cmd : Type} (c : Collab Config Cmd) (stage : String) (conf : Config)
    (projects : List String) : State Cmd → Prop
  | init : Reachable c stage conf projects (initState projects)
  | next {s s' : State Cmd} (a : Action) :
      Reachable c stage conf projects s → step c stage conf s a = some s' →
      Reachable c stage conf projects s'

/-! ## Specification vocabulary -/

/-- What the collaborators answer for one project: resolution fails, or
execution fails leaving `buff` in the buffer, or both succeed. -/
inductive Outcome
  | resolveFailed (err : GoError)
  | execFailed (buff : String) (err : GoError)
  | succeeded (buff : String)
  deriving DecidableEq, Repr

/-- Outcome of the two collaborator calls made for project `p`. -/
def outcome {Config Cmd : Type} (c : Collab Config Cmd) (stage : String) (conf : Config)
    (p : String) : Outcome :=
  match c.GetCommand stage p conf with
  | .error err => .resolveFailed err
  | .ok cmd =>
    match c.ExecuteCommand stage p cmd with
    | (buff, some err) => .execFailed buff err
    | (buff, none) => .succeeded buff

/-- Error of a project, if one of its two calls fails. -/
def Outcome.failure : Outcome → Option GoError
  | .resolveFailed err => some err
  | .execFailed _ err => some err
  | .succeeded _ => none

/-- Terminal state that the entry of a project with this outcome reaches. -/
def Outcome.status : Outcome → Status
  | .succeeded _ => .done
  | _ => .failed

/-- Every event of goroutine `i` on project `p`, in program order, when it
runs to its return. -/
def fullPath (i : Nat) (p : String) : Outcome → List Event
  | .resolveFailed err =>
    [.getCommand i, .lock (.worker i), .store (.worker i) p err, .unlock (.worker i), .fail i]
  | .execFailed buff err =>
    [.getCommand i, .executeCommand i, .lock (.worker i), .store (.worker i) p err,
      .unlock (.worker i), .fail i, .log (.worker i) buff]
  | .succeeded _ => [.getCommand i, .executeCommand i, .done i]

/-- Number of events a goroutine has performed when it stands at a control point. -/
def WPc.pos {Cmd : Type} : WPc Cmd → Nat
  | .l41 => 0
  | .l44 _ => 1
  | .l45 _ => 2
  | .l46 => 3
  | .l47 => 4
  | .l52 _ => 1
  | .l55 _ _ => 2
  | .l56 _ _ => 3
  | .l57 _ => 4
  | .l58 _ => 5
  | .l59 _ => 6
  | .l63 => 2
  | .ret => 7

/-- State of a goroutine's own entry, as a function of its control point. -/
def WPc.status {Cmd : Type} (pc : WPc Cmd) (o : Outcome) : Status :=
  match pc with
  | .l59 _ => .failed
  | .ret => o.status
  | _ => .pending

/-- The goroutine has executed its `errors[project] = err`. -/
def WPc.stored {Cmd : Type} (pc : WPc Cmd) (o : Outcome) : Bool :=
  match pc with
  | .l46 | .l47 | .l57 _ | .l58 _ | .l59 _ => true
  | .ret => o.failure.isSome
  | _ => false

/-- The goroutine is between its `mutex.Lock()` and its `mutex.Unlock()`. -/
def WPc.holds {Cmd : Type} : WPc Cmd → Bool
  | .l45 _ | .l46 | .l56 _ _ | .l57 _ => true
  | _ => false

/-- The locals at a control point are the collaborators' answers for the
goroutine's project. -/
def WPc.ok {Config Cmd : Type} (c : Collab Config Cmd) (stage : String) (conf : Config)
    (p : String) : WPc Cmd → Prop
  | .l41 => True
  | .l44 err => outcome c stage conf p = .resolveFailed err
  | .l45 err => outcome c stage conf p = .resolveFailed err
  | .l46 => ∃ err, outcome c stage conf p = .resolveFailed err
  | .l47 => ∃ err, outcome c stage conf p = .resolveFailed err
  | .l52 cmd => c.GetCommand stage p conf = .ok cmd
  | .l55 buff err => outcome c stage conf p = .execFailed buff err
  | .l56 buff err => outcome c stage conf p = .execFailed buff err
  | .l57 buff => ∃ err, outcome c stage conf p = .execFailed buff err
  | .l58 buff => ∃ err, outcome c stage conf p = .execFailed buff err
  | .l59 buff => ∃ err, outcome c stage conf p = .execFailed buff err
  | .l63 => ∃ buff, outcome c stage conf p = .succeeded buff
  | .ret => True

/-- Projects for which line 38 has not yet started a goroutine. -/
def MPc.todo : MPc → List String
  | .l38 todo => todo
  | _ => []

/-- The main goroutine is past `workerSet.Print` (line 67). -/
def MPc.pastBarrier : MPc → Bool
  | .l38 _ | .l67 => false
  | _ => true

/-- The main goroutine is past its `mutex.Lock()` and has not unlocked. -/
def MPc.holds : MPc → Bool
  | .l69 | .l70 _ | .l73 | .l75 | .exited _ => true
  | _ => false

/-- Messages logged by the main goroutine (the aggregate error lines). -/
def mainLogs (t : List Event) : List String :=
  t.filterMap (fun e => match e with
    | .log .main text => some text
    | _ => none)

/-- Messages logged by goroutine `i`. -/
def workerLogs (i : Nat) (t : List Event) : List String :=
  t.filterMap (fun e => match e with
    | .log (.worker j) text => if j = i then some text else none
    | _ => none)

/-- Events of goroutine `i` in a trace. -/
def traceOf (i : Nat) (t : List Event) : List Event :=
  t.filter (fun e => decide (e.tid = .worker i))

/-- What the main goroutine has logged and returned at each control point. -/
def MainInv {Cmd : Type} (s : State Cmd) : Prop :=
  match s.mpc with
  | .l70 rest =>
    s.errors ≠ [] ∧ Event.ret ∉ s.trace ∧
      ∃ logged : List (String × GoError), (logged ++ rest).Perm s.errors ∧ mainLogs s.trace = logged.map errorLine
  | .l73 =>
    s.errors ≠ [] ∧ Event.ret ∉ s.trace ∧
      ∃ logged : List (String × GoError), logged.Perm s.errors ∧ mainLogs s.trace = logged.map errorLine
  | .exited code =>
    (code = 1 ∧ s.errors ≠ [] ∧ Event.ret ∉ s.trace ∧
      ∃ logged : List (String × GoError), logged.Perm s.errors ∧ mainLogs s.trace = logged.map errorLine) ∨
    (code = 0 ∧ s.errors = [] ∧ mainLogs s.trace = [] ∧ Event.ret ∈ s.trace)
  | .l75 => s.errors = [] ∧ mainLogs s.trace = [] ∧ Event.ret ∉ s.trace
  | .l76 => s.errors = [] ∧ mainLogs s.trace = [] ∧ Event.ret ∉ s.trace
  | .l127 => s.errors = [] ∧ mainLogs s.trace = [] ∧ Event.ret ∈ s.trace
  | _ => mainLogs s.trace = [] ∧ Event.ret ∉ s.trace

/-- Facts about one goroutine `i` standing at `w.pc`. -/
def WorkerInv {Config Cmd : Type} (c : Collab Config Cmd) (stage : String) (conf : Config)
    (s : State Cmd) (i : Nat) (w : Worker Cmd) : Prop :=
  w.pc.ok c stage conf w.project ∧
  s.entries[i]? = some ⟨entryLabel w.project, w.pc.status (outcome c stage conf w.project)⟩ ∧
  traceOf i s.trace = (fullPath i w.project (outcome c stage conf w.project)).take w.pc.pos ∧
  (w.pc.stored (outcome c stage conf w.project) = true →
    mapGet s.errors w.project = (outcome c stage conf w.project).failure)

/-- Invariant of every reachable state. -/
structure Inv {Config Cmd : Type} (c : Collab Config Cmd) (stage : String) (conf : Config)
    (projects : List String) (s : State Cmd) : Prop where
  len : s.entries.length = s.workers.length
  projs : projects = s.workers.map (fun w => w.project) ++ s.mpc.todo
  wk : ∀ i w, s.workers[i]? = some w → WorkerInv c stage conf s i w
  fresh : ∀ i, s.workers.length ≤ i → traceOf i s.trace = []
  reg : ∀ p e, (p, e) ∈ s.errors →
    (outcome c stage conf p).failure = some e ∧
    ∃ (i : Nat) (w : Worker Cmd), s.workers[i]? = some w ∧ w.project = p ∧
      w.pc.stored (outcome c stage conf p) = true
  nodup : (s.errors.map Prod.fst).Nodup
  mtxW : ∀ i, s.mutex = some (.worker i) → ∃ w, s.workers[i]? = some w ∧ w.pc.holds = true
  mtxM : s.mutex = some .main → s.mpc.holds = true
  barrier : s.mpc.pastBarrier = true → ∀ e ∈ s.entries, e.status ≠ .pending
  mainInv : MainInv s

/-- Upper bound on the statements a goroutine still executes, plus one for the
map entry it may still add. -/
def WPc.fuel {Cmd : Type} : WPc Cmd → Nat
  | .l41 => 8
  | .l44 _ => 5
  | .l45 _ => 4
  | .l46 => 2
  | .l47 => 1
  | .l52 _ => 7
  | .l55 _ _ => 6
  | .l56 _ _ => 5
  | .l57 _ => 3
  | .l58 _ => 2
  | .l59 _ => 1
  | .l63 => 1
  | .ret => 0

/-- Upper bound on the statements the main goroutine still executes (and on
those of the goroutines it still has to start), given the size of the map. -/
def MPc.fuel (n : Nat) : MPc → Nat
  | .l38 todo => 10 * todo.length + n + 7
  | .l67 => n + 6
  | .l68 => n + 5
  | .l69 => n + 4
  | .l70 rest => rest.length + 2
  | .l73 => 1
  | .l75 => 3
  | .l76 => 2
  | .l127 => 1
  | .exited _ => 0

/-- Termination measure of the whole process. -/
def fuel {Cmd : Type} (s : State Cmd) : Nat :=
  (s.workers.map (fun w => w.pc.fuel)).sum + s.mpc.fuel s.errors.length

/-! ## The entry point `main` (lines 79-131) -/

/-- Result of `GetArguments()`: the fields of `Arguments` that `main` reads. -/
structure Arguments where
  ConfigPath : String
  Stage : String
  Projects : List String
  deriving DecidableEq, Repr

/-- The part of `Config` that `main` reads: the map `Projects`, as the list of
its entries (a Go map has no two entries with the same key). -/
structure Config (Settings : Type) where
  Projects : List (String × Settings)

/-- Order in which `range` visits the entries of a map: the runtime picks the
next entry among those not yet visited (`choices`); when the choices run out
the remaining entries come in stored order. -/
def rangeOrder {α : Type} : List Nat → List α → List α
  | [], l => l
  | k :: ks, l =>
    match l with
    | [] => []
    | x :: xs =>
      (x :: xs).getD (k % (x :: xs).length) x ::
        rangeOrder ks ((x :: xs).eraseIdx (k % (x :: xs).length))

/-- Lines 118-123: `projects = make([]string, len(conf.Projects))`, then
`projects[i] = k; i++` for each key `k` visited by `range conf.Projects`. -/
def allProjects {Settings : Type} (choices : List Nat) (conf : Config Settings) : List String :=
  ((rangeOrder choices (conf.Projects.map Prod.fst)).foldl
    (fun (acc : List String × Nat) k => (acc.1.set acc.2 k, acc.2 + 1))
    (List.replicate conf.Projects.length "", 0)).1

/-- Lines 96-105: the first element of `os.Args` whose lower-cased form is
`lint` (`some true`) or `help` (`some false`), if any. -/
def lintOrHelp (toLower : String → String) : List String → Option Bool
  | [] => none
  | v :: vs =>
    if toLower v = "lint" then some true
    else if toLower v = "help" then some false
    else lintOrHelp toLower vs

/-- What `main` does after reading its arguments. -/
inductive MainResult (Settings : Type)
  | fatal (msg : String)
  | usage
  | lint (conf : Config Settings)
  | help
  | run (stage : String) (projects : List String) (conf : Config Settings)

/-- Body of `main` up to the call of `run`.  `ReadConfig` and `strings.ToLower`
are parameters; `args` is the result of `GetArguments()`, `osArgs` is `os.Args`
and `choices` the runtime's iteration order over `conf.Projects`. -/
def main {Settings : Type} (ReadConfig : String → Except GoError (Config Settings))
    (toLower : String → String) (args : Arguments) (osArgs : List String)
    (choices : List Nat) : MainResult Settings :=
  match ReadConfig args.ConfigPath with
  | .error err => .fatal err
  | .ok conf =>
    if args.Stage = "" then .usage
    else
      match lintOrHelp toLower osArgs with
      | some true => .lint conf
      | some false => .help
      | none =>
        .run args.Stage
          (if args.Projects.length = 0 then allProjects choices conf else args.Projects) conf

/-- Exit status of the process on the paths of `main` that do not call `run`,
`lint` or `help`: `log.Fatal` exits with status 1 (line 86); after
`flag.Usage()` `main` returns (line 92), which is exit status 0. -/
def MainResult.exitStatus {Settings : Type} : MainResult Settings → Option Nat
  | .fatal _ => some 1
  | .usage => some 0
  | _ => none

/-- `run` is called. -/
def MainResult.callsRun {Settings : Type} : MainResult Settings → Bool
  | .run _ _ _ => true
  | _ => false

/-- `flag.Usage()` is called. -/
def MainResult.showsUsage {Settings : Type} : MainResult Settings → Bool
  | .usage => true
  | _ => false

/-! ## Concrete inputs -/

/-- Collaborators of the scenario: every project resolves; `b` fails at
execution with output `boom`. -/
def scenario : Collab Unit String where
  GetCommand := fun _ p _ => .ok ("make " ++ p)
  ExecuteCommand := fun _ p _ =>
    if p = "b" then ("boom", some "exit status 2") else ("ok", none)

/-- Collaborators for which project `x` has no command and every other
project succeeds. -/
def unresolved : Collab Unit String where
  GetCommand := fun _ p _ => if p = "x" then .error "no command" else .ok ("make " ++ p)
  ExecuteCommand := fun _ _ _ => ("ok", none)

/-- One schedule of the scenario: the three goroutines are started; `a` and
`c` run to their return; `b` runs up to and including `w.Fail()`; then the main
goroutine runs to `os.Exit(1)`. -/
def raceSchedule : List Action :=
  [.main 0, .main 0, .main 0, .main 0,
   .worker 0, .worker 0, .worker 0,
   .worker 1, .worker 1, .worker 1, .worker 1, .worker 1, .worker 1,
   .worker 2, .worker 2, .worker 2,
   .main 0, .main 0, .main 0, .main 0, .main 0, .main 0]

/-- Schedule in which every goroutine returns before the main goroutine
passes line 67. -/
def fullSchedule : List Action :=
  [.main 0, .main 0, .main 0, .main 0,
   .worker 0, .worker 0, .worker 0,
   .worker 1, .worker 1, .worker 1, .worker 1, .worker 1, .worker 1, .worker 1,
   .worker 2, .worker 2, .worker 2,
   .main 0, .main 0, .main 0, .main 0, .main 0, .main 0]

/-- State reached by a schedule from the entry of `run` (the entry state itself
when the schedule cannot be run). -/
def stateAfter {Config Cmd : Type} (c : Collab Config Cmd) (stage : String) (conf : Config)
    (projects : List String) (sched : List Action) : State Cmd :=
  (steps c stage conf (initState projects) sched).getD (initState projects)

/-- Schedule for projects `x`, `y` under `unresolved`: both goroutines are
started and return, then the main goroutine runs to `os.Exit(1)`. -/
def resolveSchedule : List Action :=
  [.main 0, .main 0, .main 0,
   .worker 0, .worker 0, .worker 0, .worker 0, .worker 0,
   .worker 1, .worker 1, .worker 1,
   .main 0, .main 0, .main 0, .main 0, .main 0, .main 0]

/-- The project resolves, so that `ExecuteCommand` is called for it. -/
def Outcome.resolved : Outcome → Bool
  | .resolveFailed _ => false
  | _ => true

/-- Collaborators of a second run of the scenario in which `a` has no command
and `c` fails at execution; `b` behaves as in `scenario`. -/
def scenarioOther : Collab Unit String where
  GetCommand := fun _ p _ => if p = "a" then .error "no command" else .ok ("make " ++ p)
  ExecuteCommand := fun _ p _ =>
    if p = "b" then ("boom", some "exit status 2") else ("bad", some "exit status 1")

/-- Lower-casing of ASCII letters, standing for `strings.ToLower` on the
concrete command lines below. -/
def asciiLower (s : String) : String := ⟨s.data.map Char.toLower⟩

/-- Configuration of the witnesses: projects `api` and `web`. -/
def sampleConfig : Config Unit := ⟨[("api", ()), ("web", ())]⟩

/-- `ReadConfig` that finds `sampleConfig`. -/
def readOk : String → Except GoError (Config Unit) := fun _ => .ok sampleConfig

/-- `ReadConfig` that fails. -/
def readFails : String → Except GoError (Config Unit) :=
  fun path => .error ("open " ++ path ++ ": no such file or directory")

/-- Arguments of an invocation without a stage. -/
def noStage : Arguments := ⟨"jules.toml", "", []⟩

/-- Schedule of the scenario in which the goroutine of `b` logs its buffer
after the main goroutine has logged the error line of `b`. -/
def lateSchedule : List Action :=
  [.main 0, .main 0, .main 0, .main 0,
   .worker 0, .worker 0, .worker 0,
   .worker 1, .worker 1, .worker 1, .worker 1, .worker 1, .worker 1,
   .worker 2, .worker 2, .worker 2,
   .main 0, .main 0, .main 0, .main 0,
   .worker 1,
   .main 0, .main 0]

/-- The `log` events of a trace, in order. -/
def logEvents (t : List Event) : List Event :=
  t.filter (fun e => match e with
    | .log _ _ => true
    | _ => false)

/-- Collaborators over `Config Unit` for the witness of C9: project `web`
fails at execution. -/
def sampleCollab : Collab (Config Unit) String where
  GetCommand := fun _ p _ => .ok ("make " ++ p)
  ExecuteCommand := fun _ p _ =>
    if p = "web" then ("boom", some "exit status 2") else ("ok", none)

/-- Schedule of `run "build" ["api"]` under `sampleCollab`. -/
def apiSchedule : List Action :=
  [.main 0, .main 0, .worker 0, .worker 0, .worker 0,
   .main 0, .main 0, .main 0, .main 0, .main 0, .main 0]

/-! ## Lemmas and theorems -/

theorem mapGet_mapSet_self (m : List (String × GoError)) (k : String) (v : GoError) :
    mapGet (mapSet m k v) k = some v := by
  induction m with
  | nil => simp [mapSet, mapGet]
  | cons kv m ih =>
    obtain ⟨k', v'⟩ := kv
    by_cases h : k' = k
    · simp [mapSet, mapGet, h]
    · simp [mapSet, mapGet, h, ih]

theorem mapGet_mapSet_ne (m : List (String × GoError)) (k k' : String) (v : GoError)
    (hne : k ≠ k') : mapGet (mapSet m k v) k' = mapGet m k' := by
  induction m with
  | nil => simp [mapSet, mapGet, hne]
  | cons kv m ih =>
    obtain ⟨k₀, v₀⟩ := kv
    by_cases h : k₀ = k
    · subst h
      simp [mapSet, mapGet, hne]
    · by_cases h2 : k₀ = k'
      · subst h2
        simp [mapSet, mapGet, h]
      · simp [mapSet, mapGet, h, h2, ih]

theorem mem_mapSet {m : List (String × GoError)} {k : String} {v : GoError}
    {x : String × GoError} (hx : x ∈ mapSet m k v) : x = (k, v) ∨ x ∈ m := by
  induction m with
  | nil => simpa [mapSet] using hx
  | cons kv m ih =>
    obtain ⟨k₀, v₀⟩ := kv
    by_cases h : k₀ = k
    · subst h
      simp [mapSet] at hx
      rcases hx with hx | hx
      · exact Or.inl hx
      · exact Or.inr (List.mem_cons_of_mem _ hx)
    · simp [mapSet, h] at hx
      rcases hx with hx | hx
      · exact Or.inr (by simp [hx])
      · rcases ih hx with h1 | h1
        · exact Or.inl h1
        · exact Or.inr (List.mem_cons_of_mem _ h1)

theorem mem_keys_mapSet {m : List (String × GoError)} {k : String} {v : GoError}
    {x : String} (hx : x ∈ (mapSet m k v).map Prod.fst) : x = k ∨ x ∈ m.map Prod.fst := by
  rw [List.mem_map] at hx
  obtain ⟨y, hy, rfl⟩ := hx
  rcases mem_mapSet hy with h | h
  · exact Or.inl (by simp [h])
  · exact Or.inr (List.mem_map_of_mem _ h)

theorem nodup_keys_mapSet (m : List (String × GoError)) (k : String) (v : GoError)
    (h : (m.map Prod.fst).Nodup) : ((mapSet m k v).map Prod.fst).Nodup := by
  induction m with
  | nil => simp [mapSet]
  | cons kv m ih =>
    obtain ⟨k₀, v₀⟩ := kv
    simp only [List.map_cons, List.nodup_cons] at h
    by_cases h0 : k₀ = k
    · subst h0
      simpa [mapSet] using h
    · simp only [mapSet, h0, if_false, List.map_cons, List.nodup_cons]
      refine ⟨fun hmem => ?_, ih h.2⟩
      rcases mem_keys_mapSet hmem with h1 | h1
      · exact h0 h1
      · exact h.1 h1

theorem length_mapSet_le (m : List (String × GoError)) (k : String) (v : GoError) :
    (mapSet m k v).length ≤ m.length + 1 := by
  induction m with
  | nil => simp [mapSet]
  | cons kv m ih =>
    obtain ⟨k₀, v₀⟩ := kv
    by_cases h0 : k₀ = k
    · simp [mapSet, h0]
    · simp [mapSet, h0]
      omega

theorem mapSet_ne_nil (m : List (String × GoError)) (k : String) (v : GoError) :
    mapSet m k v ≠ [] := by
  cases m with
  | nil => simp [mapSet]
  | cons kv m =>
    obtain ⟨k₀, v₀⟩ := kv
    by_cases h0 : k₀ = k <;> simp [mapSet, h0]

theorem mem_of_mapGet {m : List (String × GoError)} {k : String} {v : GoError}
    (h : mapGet m k = some v) : (k, v) ∈ m := by
  induction m with
  | nil => simp [mapGet] at h
  | cons kv m ih =>
    obtain ⟨k₀, v₀⟩ := kv
    by_cases h0 : k₀ = k
    · simp [mapGet, h0] at h
      simp [h0, h]
    · simp [mapGet, h0] at h
      exact List.mem_cons_of_mem _ (ih h)

theorem mapGet_isSome_of_mem {m : List (String × GoError)} {k : String} {v : GoError}
    (h : (k, v) ∈ m) : (mapGet m k).isSome = true := by
  induction m with
  | nil => simp at h
  | cons kv m ih =>
    obtain ⟨k₀, v₀⟩ := kv
    by_cases h0 : k₀ = k
    · simp [mapGet, h0]
    · simp [mapGet, h0]
      simp at h
      rcases h with h | h
      · exact absurd h.1.symm h0
      · exact ih h

theorem length_setStatus (es : List Entry) (i : Nat) (st : Status) :
    (setStatus es i st).length = es.length := by
  unfold setStatus
  split <;> simp

theorem getElem?_setStatus_ne (es : List Entry) {i j : Nat} (st : Status) (h : i ≠ j) :
    (setStatus es i st)[j]? = es[j]? := by
  unfold setStatus
  split
  · simp [List.getElem?_set_ne h]
  · rfl

theorem getElem?_setStatus_self (es : List Entry) {i : Nat} {e : Entry} (st : Status)
    (h : es[i]? = some e) : (setStatus es i st)[i]? = some ⟨e.label, st⟩ := by
  unfold setStatus
  have hi : i < es.length := by
    rcases Nat.lt_or_ge i es.length with h1 | h1
    · exact h1
    · rw [List.getElem?_eq_none h1] at h; cases h
  simp [h, List.getElem?_set_self hi]

theorem mem_setStatus {es : List Entry} {i : Nat} {st : Status} {e : Entry}
    (h : e ∈ setStatus es i st) : e ∈ es ∨ e.status = st := by
  unfold setStatus at h
  split at h
  · rcases List.mem_or_eq_of_mem_set h with h1 | h1
    · exact Or.inl h1
    · exact Or.inr (by simp [h1])
  · exact Or.inl h

theorem traceOf_append (i : Nat) (t u : List Event) :
    traceOf i (t ++ u) = traceOf i t ++ traceOf i u := by
  simp [traceOf]

theorem traceOf_snoc_self (i : Nat) (t : List Event) (ev : Event) (h : ev.tid = .worker i) :
    traceOf i (t ++ [ev]) = traceOf i t ++ [ev] := by
  simp [traceOf, h]

theorem traceOf_snoc_other (j : Nat) (t : List Event) (ev : Event) (h : ev.tid ≠ .worker j) :
    traceOf j (t ++ [ev]) = traceOf j t := by
  simp [traceOf, h]

theorem mainLogs_snoc_worker (t : List Event) (ev : Event) (i : Nat) (h : ev.tid = .worker i) :
    mainLogs (t ++ [ev]) = mainLogs t := by
  cases ev <;> simp_all [mainLogs, Event.tid]

theorem ret_mem_snoc_worker (t : List Event) (ev : Event) (i : Nat) (h : ev.tid = .worker i) :
    Event.ret ∈ t ++ [ev] ↔ Event.ret ∈ t := by
  cases ev <;> simp_all [Event.tid]

theorem map_project_set {Cmd : Type} (ws : List (Worker Cmd)) (i : Nat) (w : Worker Cmd)
    (pc : WPc Cmd) (h : ws[i]? = some w) :
    (ws.set i { w with pc := pc }).map (fun w => w.project) = ws.map (fun w => w.project) := by
  apply List.ext_getElem?
  intro j
  by_cases hj : i = j
  · subst hj
    have hi : i < ws.length := by
      rcases Nat.lt_or_ge i ws.length with h1 | h1
      · exact h1
      · rw [List.getElem?_eq_none h1] at h; cases h
    rw [List.getElem?_map, List.getElem?_map, List.getElem?_set_self hi, h]
    rfl
  · rw [List.getElem?_map, List.getElem?_map, List.getElem?_set_ne hj]

theorem lt_of_getElem?_eq_some {α : Type} {l : List α} {i : Nat} {a : α} (h : l[i]? = some a) :
    i < l.length := by
  rcases Nat.lt_or_ge i l.length with h1 | h1
  · exact h1
  · rw [List.getElem?_eq_none h1] at h; cases h

/-- Frame rule for one statement of goroutine `i`: the invariant is kept when the
statement moves the goroutine to `pc2`, adds one event of its own, and changes
the board, the map and the mutex in one of the allowed ways. -/
theorem inv_worker_update {Config Cmd : Type} {c : Collab Config Cmd} {stage : String}
    {conf : Config} {projects : List String} {s : State Cmd} {i : Nat} {w : Worker Cmd}
    (hI : Inv c stage conf projects s) (hw : s.workers[i]? = some w)
    (pc2 : WPc Cmd) (ev : Event) (es2 : List Entry) (er2 : List (String × GoError))
    (mx2 : Option Tid)
    (hev : ev.tid = .worker i)
    (hok : pc2.ok c stage conf w.project)
    (hpos : (fullPath i w.project (outcome c stage conf w.project)).take pc2.pos =
      (fullPath i w.project (outcome c stage conf w.project)).take w.pc.pos ++ [ev])
    (hes : (es2 = s.entries ∧ pc2.status (outcome c stage conf w.project) =
              w.pc.status (outcome c stage conf w.project)) ∨
           (es2 = setStatus s.entries i (pc2.status (outcome c stage conf w.project)) ∧
              pc2.status (outcome c stage conf w.project) ≠ .pending))
    (her : (er2 = s.errors ∧ pc2.stored (outcome c stage conf w.project) =
              w.pc.stored (outcome c stage conf w.project)) ∨
           (∃ e, er2 = mapSet s.errors w.project e ∧
              (outcome c stage conf w.project).failure = some e ∧
              w.pc.status (outcome c stage conf w.project) = .pending ∧
              pc2.stored (outcome c stage conf w.project) = true))
    (hmx : (mx2 = s.mutex ∧ (w.pc.holds = true → pc2.holds = true)) ∨
           (mx2 = some (.worker i) ∧ pc2.holds = true) ∨ mx2 = none) :
    Inv c stage conf projects
      { entries := es2, errors := er2, mutex := mx2,
        workers := s.workers.set i { w with pc := pc2 }, mpc := s.mpc,
        trace := s.trace ++ [ev] } := by
  have hi : i < s.workers.length := lt_of_getElem?_eq_some hw
  obtain ⟨hwok, hwent, hwtr, hwst⟩ := hI.wk i w hw
  have hlen2 : es2.length = s.entries.length := by
    rcases hes with ⟨h, _⟩ | ⟨h, _⟩
    · rw [h]
    · rw [h, length_setStatus]
  refine ⟨?_, ?_, ?_, ?_, ?_, ?_, ?_, ?_, ?_, ?_⟩
  · simp [hlen2, hI.len]
  · simp only [map_project_set _ _ _ _ hw]
    exact hI.projs
  · -- wk
    intro j wj hj
    by_cases hji : i = j
    · subst hji
      simp only [List.getElem?_set_self hi, Option.some.injEq] at hj
      subst hj
      refine ⟨hok, ?_, ?_, ?_⟩
      · rcases hes with ⟨h, hs⟩ | ⟨h, _⟩
        · simp only [h, hs]; exact hwent
        · simp only [h]
          exact getElem?_setStatus_self _ _ hwent
      · simp only [traceOf_snoc_self _ _ _ hev, hwtr, hpos]
      · intro hst2
        rcases her with ⟨h, hs⟩ | ⟨e, h, hf, _, _⟩
        · simp only [h]
          exact hwst (by rw [← hs]; exact hst2)
        · simp only [h, hf]
          exact mapGet_mapSet_self _ _ _
    · simp only [List.getElem?_set_ne hji] at hj
      obtain ⟨hjok, hjent, hjtr, hjst⟩ := hI.wk j wj hj
      refine ⟨hjok, ?_, ?_, ?_⟩
      · rcases hes with ⟨h, _⟩ | ⟨h, _⟩
        · simp only [h]; exact hjent
        · simp only [h, getElem?_setStatus_ne _ _ hji]; exact hjent
      · have : ev.tid ≠ .worker j := by
          rw [hev]; intro hh; injection hh with hh; exact hji hh
        simp only [traceOf_snoc_other _ _ _ this]
        exact hjtr
      · intro hst2
        rcases her with ⟨h, _⟩ | ⟨e, h, hf, _, _⟩
        · simp only [h]; exact hjst hst2
        · simp only [h]
          by_cases hp : w.project = wj.project
          · rw [← hp, mapGet_mapSet_self, hf]
          · rw [mapGet_mapSet_ne _ _ _ _ hp]; exact hjst hst2
  · -- fresh
    intro j hj
    simp only [List.length_set] at hj
    have : ev.tid ≠ .worker j := by
      rw [hev]; intro hh; injection hh with hh; omega
    simp only [traceOf_snoc_other _ _ _ this]
    exact hI.fresh j hj
  · -- reg
    intro p e hpe
    have hold : ∀ p e, (p, e) ∈ s.errors →
        (outcome c stage conf p).failure = some e ∧
        ∃ (j : Nat) (wj : Worker Cmd),
          (s.workers.set i { w with pc := pc2 })[j]? = some wj ∧ wj.project = p ∧
            wj.pc.stored (outcome c stage conf p) = true := by
      intro p e hpe
      obtain ⟨hf, j, wj, hj, hjp, hjs⟩ := hI.reg p e hpe
      refine ⟨hf, ?_⟩
      by_cases hji : i = j
      · subst hji
        rw [hw] at hj
        simp only [Option.some.injEq] at hj
        subst hj
        refine ⟨i, { w with pc := pc2 }, List.getElem?_set_self hi, hjp, ?_⟩
        subst hjp
        rcases her with ⟨_, hs⟩ | ⟨_, _, _, _, hs⟩
        · simp only [hs]; exact hjs
        · exact hs
      · exact ⟨j, wj, by simp only [List.getElem?_set_ne hji]; exact hj, hjp, hjs⟩
    rcases her with ⟨h, _⟩ | ⟨e2, h, hf, _, hs⟩
    · simp only [h] at hpe
      exact hold p e hpe
    · simp only [h] at hpe
      rcases mem_mapSet hpe with h1 | h1
      · simp only [Prod.mk.injEq] at h1
        obtain ⟨rfl, rfl⟩ := h1
        exact ⟨hf, i, { w with pc := pc2 }, List.getElem?_set_self hi, rfl, hs⟩
      · exact hold p e h1
  · -- nodup
    rcases her with ⟨h, _⟩ | ⟨e2, h, _, _, _⟩
    · simp only [h]; exact hI.nodup
    · simp only [h]; exact nodup_keys_mapSet _ _ _ hI.nodup
  · -- mtxW
    intro j hj
    simp only at hj
    have hold : ∀ j, s.mutex = some (.worker j) → (j = i → pc2.holds = true) →
        ∃ wj, (s.workers.set i { w with pc := pc2 })[j]? = some wj ∧ wj.pc.holds = true := by
      intro j hj hh
      obtain ⟨wj, hwj, hjh⟩ := hI.mtxW j hj
      by_cases hji : i = j
      · subst hji
        exact ⟨_, List.getElem?_set_self hi, hh rfl⟩
      · exact ⟨wj, by simp only [List.getElem?_set_ne hji]; exact hwj, hjh⟩
    rcases hmx with ⟨h, hh⟩ | ⟨h, hh⟩ | h
    · rw [h] at hj
      refine hold j hj (fun hji => ?_)
      subst hji
      obtain ⟨wj, hwj, hjh⟩ := hI.mtxW j hj
      rw [hw] at hwj
      simp only [Option.some.injEq] at hwj
      subst hwj
      exact hh hjh
    · rw [h] at hj
      simp only [Option.some.injEq, Tid.worker.injEq] at hj
      subst hj
      exact ⟨_, List.getElem?_set_self hi, hh⟩
    · rw [h] at hj; cases hj
  · -- mtxM
    intro hm
    simp only at hm
    rcases hmx with ⟨h, _⟩ | ⟨h, _⟩ | h
    · rw [h] at hm; exact hI.mtxM hm
    · rw [h] at hm; cases hm
    · rw [h] at hm; cases hm
  · -- barrier
    intro hb e he
    simp only at hb he
    rcases hes with ⟨h, _⟩ | ⟨h, hne⟩
    · rw [h] at he; exact hI.barrier hb e he
    · rw [h] at he
      rcases mem_setStatus he with h1 | h1
      · exact hI.barrier hb e h1
      · rw [h1]; exact hne
  · -- mainInv
    have hM := hI.mainInv
    have herr : s.mpc.pastBarrier = true → er2 = s.errors := by
      intro hb
      rcases her with ⟨h, _⟩ | ⟨e2, _, _, hp, _⟩
      · exact h
      · exfalso
        have := hI.barrier hb _ (List.getElem?_mem hwent)
        exact this hp
    unfold MainInv at hM ⊢
    simp only [mainLogs_snoc_worker _ _ _ hev, ret_mem_snoc_worker _ _ _ hev]
    cases hmpc : s.mpc <;> simp only [hmpc] at hM herr ⊢ <;>
      first
        | exact hM
        | (rw [herr rfl]; exact hM)

theorem outcome_of_error {Config Cmd : Type} {c : Collab Config Cmd} {stage : String}
    {conf : Config} {p : String} {err : GoError}
    (h : c.GetCommand stage p conf = .error err) :
    outcome c stage conf p = .resolveFailed err := by
  simp [outcome, h]

theorem outcome_of_exec_error {Config Cmd : Type} {c : Collab Config Cmd} {stage : String}
    {conf : Config} {p : String} {cmd : Cmd} {buff : String} {err : GoError}
    (h : c.GetCommand stage p conf = .ok cmd)
    (h2 : c.ExecuteCommand stage p cmd = (buff, some err)) :
    outcome c stage conf p = .execFailed buff err := by
  simp [outcome, h, h2]

theorem outcome_of_exec_ok {Config Cmd : Type} {c : Collab Config Cmd} {stage : String}
    {conf : Config} {p : String} {cmd : Cmd} {buff : String}
    (h : c.GetCommand stage p conf = .ok cmd)
    (h2 : c.ExecuteCommand stage p cmd = (buff, none)) :
    outcome c stage conf p = .succeeded buff := by
  simp [outcome, h, h2]

theorem fullPath_take_one (i : Nat) (p : String) (o : Outcome) :
    (fullPath i p o).take 1 = [.getCommand i] := by
  cases o <;> rfl

theorem inv_stepWorker {Config Cmd : Type} {c : Collab Config Cmd} {stage : String}
    {conf : Config} {projects : List String} {s s' : State Cmd} {i : Nat}
    (hI : Inv c stage conf projects s) (h : stepWorker c stage conf s i = some s') :
    Inv c stage conf projects s' := by
  unfold stepWorker at h
  split at h
  · cases h
  split at h
  · cases h
  rename_i w hw
  obtain ⟨hwok, -, -, -⟩ := hI.wk i w hw
  split at h
  · -- l41
    rename_i hpc
    split at h
    · rename_i err hg
      simp only [Option.some.injEq] at h
      subst h
      have ho := outcome_of_error hg
      refine inv_worker_update hI hw _ _ _ _ _ rfl ho ?_ (Or.inl ⟨rfl, ?_⟩)
        (Or.inl ⟨rfl, ?_⟩) (Or.inl ⟨rfl, ?_⟩)
      · simp [hpc, ho, fullPath, WPc.pos]
      · simp [hpc, WPc.status]
      · simp [hpc, WPc.stored]
      · simp [hpc, WPc.holds]
    · rename_i cmd hg
      simp only [Option.some.injEq] at h
      subst h
      refine inv_worker_update hI hw _ _ _ _ _ rfl hg ?_ (Or.inl ⟨rfl, ?_⟩)
        (Or.inl ⟨rfl, ?_⟩) (Or.inl ⟨rfl, ?_⟩)
      · simp [hpc, WPc.pos, fullPath_take_one]
      · simp [hpc, WPc.status]
      · simp [hpc, WPc.stored]
      · simp [hpc, WPc.holds]
  · -- l44
    rename_i err hpc
    rw [hpc] at hwok
    split at h
    · simp only [Option.some.injEq] at h
      subst h
      refine inv_worker_update hI hw _ _ _ _ _ rfl hwok ?_ (Or.inl ⟨rfl, ?_⟩)
        (Or.inl ⟨rfl, ?_⟩) (Or.inr (Or.inl ⟨rfl, rfl⟩))
      · simp [hpc, WPc.ok] at hwok ⊢
        simp [hwok, fullPath, WPc.pos]
      · simp [hpc, WPc.status]
      · simp [hpc, WPc.stored]
    · cases h
  · -- l45
    rename_i err hpc
    rw [hpc] at hwok
    have ho : outcome c stage conf w.project = .resolveFailed err := hwok
    simp only [Option.some.injEq] at h
    subst h
    refine inv_worker_update hI hw _ _ _ _ _ rfl ⟨err, ho⟩ ?_ (Or.inl ⟨rfl, ?_⟩)
      (Or.inr ⟨err, rfl, ?_, ?_, ?_⟩) (Or.inl ⟨rfl, ?_⟩) <;>
      simp [hpc, ho, fullPath, WPc.pos, WPc.status, WPc.stored, WPc.holds, Outcome.status,
        Outcome.failure]
  · -- l46
    rename_i hpc
    rw [hpc] at hwok
    obtain ⟨err, ho⟩ := hwok
    simp only [Option.some.injEq] at h
    subst h
    refine inv_worker_update hI hw _ _ _ _ _ rfl ⟨err, ho⟩ ?_ (Or.inl ⟨rfl, ?_⟩)
      (Or.inl ⟨rfl, ?_⟩) (Or.inr (Or.inr rfl)) <;>
      simp [hpc, ho, fullPath, WPc.pos, WPc.status, WPc.stored, WPc.holds, Outcome.status,
        Outcome.failure]
  · -- l47
    rename_i hpc
    rw [hpc] at hwok
    obtain ⟨err, ho⟩ := hwok
    simp only [Option.some.injEq] at h
    subst h
    refine inv_worker_update hI hw _ _ _ _ _ rfl trivial ?_ (Or.inr ⟨?_, ?_⟩)
      (Or.inl ⟨rfl, ?_⟩) (Or.inl ⟨rfl, ?_⟩) <;>
      simp [hpc, ho, fullPath, WPc.pos, WPc.status, WPc.stored, WPc.holds, Outcome.status,
        Outcome.failure]
  · -- l52
    rename_i cmd hpc
    rw [hpc] at hwok
    have hg : c.GetCommand stage w.project conf = .ok cmd := hwok
    split at h
    · rename_i buff err hx
      have ho := outcome_of_exec_error hg hx
      simp only [Option.some.injEq] at h
      subst h
      refine inv_worker_update hI hw _ _ _ _ _ rfl ho ?_ (Or.inl ⟨rfl, ?_⟩)
        (Or.inl ⟨rfl, ?_⟩) (Or.inl ⟨rfl, ?_⟩) <;>
        simp [hpc, ho, fullPath, WPc.pos, WPc.status, WPc.stored, WPc.holds, Outcome.status,
          Outcome.failure]
    · rename_i buff hx
      have ho := outcome_of_exec_ok hg hx
      simp only [Option.some.injEq] at h
      subst h
      refine inv_worker_update hI hw _ _ _ _ _ rfl ⟨buff, ho⟩ ?_ (Or.inl ⟨rfl, ?_⟩)
        (Or.inl ⟨rfl, ?_⟩) (Or.inl ⟨rfl, ?_⟩) <;>
        simp [hpc, ho, fullPath, WPc.pos, WPc.status, WPc.stored, WPc.holds, Outcome.status,
          Outcome.failure]
  · -- l55
    rename_i buff err hpc
    rw [hpc] at hwok
    have ho : outcome c stage conf w.project = .execFailed buff err := hwok
    split at h
    · simp only [Option.some.injEq] at h
      subst h
      refine inv_worker_update hI hw _ _ _ _ _ rfl ho ?_ (Or.inl ⟨rfl, ?_⟩)
        (Or.inl ⟨rfl, ?_⟩) (Or.inr (Or.inl ⟨rfl, rfl⟩)) <;>
        simp [hpc, ho, fullPath, WPc.pos, WPc.status, WPc.stored, WPc.holds, Outcome.status,
          Outcome.failure]
    · cases h
  · -- l56
    rename_i buff err hpc
    rw [hpc] at hwok
    have ho : outcome c stage conf w.project = .execFailed buff err := hwok
    simp only [Option.some.injEq] at h
    subst h
    refine inv_worker_update hI hw _ _ _ _ _ rfl ⟨err, ho⟩ ?_ (Or.inl ⟨rfl, ?_⟩)
      (Or.inr ⟨err, rfl, ?_, ?_, ?_⟩) (Or.inl ⟨rfl, ?_⟩) <;>
      simp [hpc, ho, fullPath, WPc.pos, WPc.status, WPc.stored, WPc.holds, Outcome.status,
        Outcome.failure]
  · -- l57
    rename_i buff hpc
    rw [hpc] at hwok
    obtain ⟨err, ho⟩ := hwok
    simp only [Option.some.injEq] at h
    subst h
    refine inv_worker_update hI hw _ _ _ _ _ rfl ⟨err, ho⟩ ?_ (Or.inl ⟨rfl, ?_⟩)
      (Or.inl ⟨rfl, ?_⟩) (Or.inr (Or.inr rfl)) <;>
      simp [hpc, ho, fullPath, WPc.pos, WPc.status, WPc.stored, WPc.holds, Outcome.status,
        Outcome.failure]
  · -- l58
    rename_i buff hpc
    rw [hpc] at hwok
    obtain ⟨err, ho⟩ := hwok
    simp only [Option.some.injEq] at h
    subst h
    refine inv_worker_update hI hw _ _ _ _ _ rfl ⟨err, ho⟩ ?_ (Or.inr ⟨?_, ?_⟩)
      (Or.inl ⟨rfl, ?_⟩) (Or.inl ⟨rfl, ?_⟩) <;>
      simp [hpc, ho, fullPath, WPc.pos, WPc.status, WPc.stored, WPc.holds, Outcome.status,
        Outcome.failure]
  · -- l59
    rename_i buff hpc
    rw [hpc] at hwok
    obtain ⟨err, ho⟩ := hwok
    simp only [Option.some.injEq] at h
    subst h
    refine inv_worker_update hI hw _ _ _ _ _ rfl trivial ?_ (Or.inl ⟨rfl, ?_⟩)
      (Or.inl ⟨rfl, ?_⟩) (Or.inl ⟨rfl, ?_⟩) <;>
      simp [hpc, ho, fullPath, WPc.pos, WPc.status, WPc.stored, WPc.holds, Outcome.status,
        Outcome.failure]
  · -- l63
    rename_i hpc
    rw [hpc] at hwok
    obtain ⟨buff, ho⟩ := hwok
    simp only [Option.some.injEq] at h
    subst h
    refine inv_worker_update hI hw _ _ _ _ _ rfl trivial ?_ (Or.inr ⟨?_, ?_⟩)
      (Or.inl ⟨rfl, ?_⟩) (Or.inl ⟨rfl, ?_⟩) <;>
      simp [hpc, ho, fullPath, WPc.pos, WPc.status, WPc.stored, WPc.holds, Outcome.status,
        Outcome.failure]
  · cases h

theorem traceOf_append_main (j : Nat) (t evs : List Event) (h : ∀ e ∈ evs, e.tid = .main) :
    traceOf j (t ++ evs) = traceOf j t := by
  rw [traceOf_append]
  have : traceOf j evs = [] := by
    unfold traceOf
    rw [List.filter_eq_nil_iff]
    intro e he
    simp [h e he]
  rw [this, List.append_nil]

theorem perm_getD_cons_eraseIdx {α : Type} (l : List α) (j : Nat) (d : α) (hj : j < l.length) :
    (l.getD j d :: l.eraseIdx j).Perm l := by
  induction l generalizing j with
  | nil => simp at hj
  | cons a l ih =>
    cases j with
    | zero => simp
    | succ n =>
      simp only [List.length_cons, Nat.add_lt_add_iff_right] at hj
      simp only [List.getD_cons_succ, List.eraseIdx_cons_succ]
      exact (List.Perm.swap _ _ _).trans ((ih n hj).cons a)

/-- Frame rule for a statement of the main goroutine that starts no goroutine:
it may change the mutex and its own control point, and adds events of its own. -/
theorem inv_main_update {Config Cmd : Type} {c : Collab Config Cmd} {stage : String}
    {conf : Config} {projects : List String} {s : State Cmd}
    (hI : Inv c stage conf projects s) (pc2 : MPc) (mx2 : Option Tid) (evs : List Event)
    (hev : ∀ e ∈ evs, e.tid = .main)
    (htodo : pc2.todo = s.mpc.todo)
    (hmx : mx2 = s.mutex ∨ mx2 = none ∨ mx2 = some .main)
    (hmm : mx2 = some .main → pc2.holds = true)
    (hbar : pc2.pastBarrier = true → ∀ e ∈ s.entries, e.status ≠ .pending)
    (hmain : MainInv
      { entries := s.entries, errors := s.errors, mutex := mx2, workers := s.workers,
        mpc := pc2, trace := s.trace ++ evs }) :
    Inv c stage conf projects
      { entries := s.entries, errors := s.errors, mutex := mx2, workers := s.workers,
        mpc := pc2, trace := s.trace ++ evs } := by
  refine ⟨hI.len, ?_, ?_, ?_, hI.reg, hI.nodup, ?_, hmm, hbar, hmain⟩
  · simp only [htodo]; exact hI.projs
  · intro j wj hj
    obtain ⟨h1, h2, h3, h4⟩ := hI.wk j wj hj
    refine ⟨h1, h2, ?_, h4⟩
    simp only [traceOf_append_main _ _ _ hev]
    exact h3
  · intro j hj
    simp only [traceOf_append_main _ _ _ hev]
    exact hI.fresh j hj
  · intro j hj
    simp only at hj
    rcases hmx with h | h | h
    · rw [h] at hj; exact hI.mtxW j hj
    · rw [h] at hj; cases hj
    · rw [h] at hj; cases hj

theorem inv_init {Config Cmd : Type} (c : Collab Config Cmd) (stage : String)
    (conf : Config) (projects : List String) :
    Inv c stage conf projects (initState projects : State Cmd) := by
  refine ⟨rfl, rfl, ?_, ?_, ?_, ?_, ?_, ?_, ?_, ?_⟩ <;>
    simp [initState, traceOf, MPc.pastBarrier, MainInv, mainLogs]

theorem mainLogs_append (t u : List Event) : mainLogs (t ++ u) = mainLogs t ++ mainLogs u := by
  simp [mainLogs]

theorem inv_spawn {Config Cmd : Type} {c : Collab Config Cmd} {stage : String}
    {conf : Config} {projects : List String} {s : State Cmd} {p : String} {todo : List String}
    (hI : Inv c stage conf projects s) (hpc : s.mpc = .l38 (p :: todo)) :
    Inv c stage conf projects
      { entries := s.entries ++ [⟨entryLabel p, .pending⟩], errors := s.errors,
        mutex := s.mutex, workers := s.workers ++ [⟨p, .l41⟩], mpc := .l38 todo,
        trace := s.trace ++ [.add s.workers.length (entryLabel p), .go s.workers.length p] } := by
  have hev : ∀ e ∈ [Event.add s.workers.length (entryLabel p), Event.go s.workers.length p],
      e.tid = .main := by
    intro e he
    rw [List.mem_cons, List.mem_singleton] at he
    rcases he with rfl | rfl <;> rfl
  refine ⟨?_, ?_, ?_, ?_, ?_, hI.nodup, ?_, ?_, ?_, ?_⟩
  · simp [hI.len]
  · have := hI.projs
    rw [hpc] at this
    simp [this, MPc.todo]
  · intro j wj hj
    rcases Nat.lt_or_ge j s.workers.length with hlt | hge
    · rw [List.getElem?_append_left hlt] at hj
      obtain ⟨h1, h2, h3, h4⟩ := hI.wk j wj hj
      refine ⟨h1, ?_, by rw [traceOf_append_main _ _ _ hev]; exact h3, h4⟩
      rw [List.getElem?_append_left (by rw [hI.len]; exact hlt)]
      exact h2
    · rw [List.getElem?_append_right hge] at hj
      have hj0 : j - s.workers.length = 0 := by
        rcases Nat.eq_zero_or_pos (j - s.workers.length) with h0 | h0
        · exact h0
        · rw [List.getElem?_eq_none (by simp only [List.length_singleton]; omega)] at hj; cases hj
      rw [hj0] at hj
      simp only [List.getElem?_cons_zero, Option.some.injEq] at hj
      subst hj
      refine ⟨trivial, ?_, ?_, ?_⟩
      · rw [List.getElem?_append_right (by rw [hI.len]; exact hge), hI.len, hj0]
        rfl
      · rw [traceOf_append_main _ _ _ hev, hI.fresh j hge]
        rfl
      · intro hh
        simp [WPc.stored] at hh
  · intro j hj
    simp only [traceOf_append_main _ _ _ hev]
    simp only [List.length_append, List.length_singleton] at hj
    exact hI.fresh j (by omega)
  · intro q e hqe
    obtain ⟨hf, j, wj, hj, h2, h3⟩ := hI.reg q e hqe
    refine ⟨hf, j, wj, ?_, h2, h3⟩
    rw [List.getElem?_append_left (lt_of_getElem?_eq_some hj)]
    exact hj
  · intro j hj
    obtain ⟨wj, hwj, h2⟩ := hI.mtxW j hj
    refine ⟨wj, ?_, h2⟩
    rw [List.getElem?_append_left (lt_of_getElem?_eq_some hwj)]
    exact hwj
  · intro hm
    have := hI.mtxM hm
    rw [hpc] at this
    simp [MPc.holds] at this
  · intro hb
    simp [MPc.pastBarrier] at hb
  · have hM := hI.mainInv
    unfold MainInv at hM ⊢
    rw [hpc] at hM
    simp only at hM ⊢
    refine ⟨by rw [mainLogs_append, hM.1]; rfl, ?_⟩
    simpa using hM.2

theorem inv_stepMain {Config Cmd : Type} {c : Collab Config Cmd} {stage : String}
    {conf : Config} {projects : List String} {s s' : State Cmd} {k : Nat}
    (hI : Inv c stage conf projects s) (h : stepMain s k = some s') :
    Inv c stage conf projects s' := by
  have hM := hI.mainInv
  unfold MainInv at hM
  unfold stepMain at h
  split at h
  · -- l38 []
    rename_i hpc
    simp only [Option.some.injEq] at h
    subst h
    have := inv_main_update hI .l67 s.mutex [] (by simp) (by simp [hpc, MPc.todo])
      (Or.inl rfl) (fun hm => by have := hI.mtxM hm; simp [hpc, MPc.holds] at this)
      (by simp [MPc.pastBarrier])
      (by rw [hpc] at hM; simpa [MainInv] using hM)
    simpa using this
  · -- l38 (p :: todo)
    rename_i p todo hpc
    simp only [Option.some.injEq] at h
    subst h
    exact inv_spawn hI hpc
  · -- l67
    rename_i hpc
    split at h
    · rename_i hall
      simp only [Option.some.injEq] at h
      subst h
      refine inv_main_update hI .l68 s.mutex [.print] (by simp [Event.tid]) (by simp [hpc, MPc.todo])
        (Or.inl rfl) (fun hm => by have := hI.mtxM hm; simp [hpc, MPc.holds] at this)
        (fun _ e he => ?_) ?_
      · rw [List.all_eq_true] at hall
        simpa using hall e he
      · rw [hpc] at hM
        simp only at hM
        simp only [MainInv]
        refine ⟨by rw [mainLogs_append, hM.1]; rfl, ?_⟩
        simpa using hM.2
    · cases h
  · -- l68
    rename_i hpc
    split at h
    · simp only [Option.some.injEq] at h
      subst h
      refine inv_main_update hI .l69 (some .main) [.lock .main] (by simp [Event.tid])
        (by simp [hpc, MPc.todo]) (Or.inr (Or.inr rfl)) (fun _ => rfl)
        (fun _ => hI.barrier (by simp [hpc, MPc.pastBarrier])) ?_
      rw [hpc] at hM
      simp only at hM
      simp only [MainInv]
      refine ⟨by rw [mainLogs_append, hM.1]; rfl, ?_⟩
      simpa using hM.2
    · cases h
  · -- l69
    rename_i hpc
    rw [hpc] at hM
    simp only at hM
    split at h
    · rename_i hne
      simp only [Option.some.injEq] at h
      subst h
      have := inv_main_update hI (.l70 s.errors) s.mutex [] (by simp) (by simp [hpc, MPc.todo])
        (Or.inl rfl) (fun _ => rfl)
        (fun _ => hI.barrier (by simp [hpc, MPc.pastBarrier]))
        (by
          simp only [MainInv, List.append_nil]
          refine ⟨fun h0 => hne (by simp [h0]), hM.2, [], by simp, by simp [hM.1]⟩)
      simpa using this
    · rename_i hne
      simp only [Option.some.injEq] at h
      subst h
      have := inv_main_update hI .l75 s.mutex [] (by simp) (by simp [hpc, MPc.todo])
        (Or.inl rfl) (fun _ => rfl)
        (fun _ => hI.barrier (by simp [hpc, MPc.pastBarrier]))
        (by
          simp only [MainInv, List.append_nil]
          refine ⟨?_, hM.1, hM.2⟩
          simpa using hne)
      simpa using this
  · -- l70 []
    rename_i hpc
    rw [hpc] at hM
    simp only at hM
    simp only [Option.some.injEq] at h
    subst h
    have := inv_main_update hI .l73 s.mutex [] (by simp) (by simp [hpc, MPc.todo])
      (Or.inl rfl) (fun _ => rfl)
      (fun _ => hI.barrier (by simp [hpc, MPc.pastBarrier]))
      (by
        simp only [MainInv, List.append_nil]
        obtain ⟨h1, h2, logged, h3, h4⟩ := hM
        exact ⟨h1, h2, logged, by simpa using h3, h4⟩)
    simpa using this
  · -- l70 (kv :: rest)
    rename_i kv rest hpc
    rw [hpc] at hM
    simp only at hM
    simp only [Option.some.injEq] at h
    subst h
    refine inv_main_update hI _ s.mutex _ (by simp [Event.tid]) (by simp [hpc, MPc.todo])
      (Or.inl rfl) (fun _ => rfl)
      (fun _ => hI.barrier (by simp [hpc, MPc.pastBarrier])) ?_
    obtain ⟨h1, h2, logged, h3, h4⟩ := hM
    simp only [MainInv]
    refine ⟨h1, by simpa using h2,
      logged ++ [(kv :: rest).getD (k % (kv :: rest).length) kv], ?_, ?_⟩
    · have hlt : k % (kv :: rest).length < (kv :: rest).length :=
        Nat.mod_lt _ (by simp)
      have hp := perm_getD_cons_eraseIdx (kv :: rest) _ kv hlt
      rw [List.append_assoc]
      exact ((List.Perm.append_left logged hp).trans h3)
    · rw [mainLogs_append, h4, List.map_append]
      rfl
  · -- l73
    rename_i hpc
    rw [hpc] at hM
    simp only at hM
    simp only [Option.some.injEq] at h
    subst h
    refine inv_main_update hI _ s.mutex _ (by simp [Event.tid]) (by simp [hpc, MPc.todo])
      (Or.inl rfl) (fun _ => rfl)
      (fun _ => hI.barrier (by simp [hpc, MPc.pastBarrier])) ?_
    obtain ⟨h1, h2, logged, h3, h4⟩ := hM
    simp only [MainInv]
    exact Or.inl ⟨trivial, h1, by simpa using h2, logged, h3, by rw [mainLogs_append, h4]; exact List.append_nil _⟩
  · -- l75
    rename_i hpc
    rw [hpc] at hM
    simp only at hM
    simp only [Option.some.injEq] at h
    subst h
    refine inv_main_update hI _ none _ (by simp [Event.tid]) (by simp [hpc, MPc.todo])
      (Or.inr (Or.inl rfl)) (fun hh => by cases hh)
      (fun _ => hI.barrier (by simp [hpc, MPc.pastBarrier])) ?_
    simp only [MainInv]
    exact ⟨hM.1, by rw [mainLogs_append, hM.2.1]; rfl, by simpa using hM.2.2⟩
  · -- l76
    rename_i hpc
    rw [hpc] at hM
    simp only at hM
    simp only [Option.some.injEq] at h
    subst h
    refine inv_main_update hI _ s.mutex _ (by simp [Event.tid]) (by simp [hpc, MPc.todo])
      (Or.inl rfl) (fun hm => by have := hI.mtxM hm; simp [hpc, MPc.holds] at this)
      (fun _ => hI.barrier (by simp [hpc, MPc.pastBarrier])) ?_
    simp only [MainInv]
    exact ⟨hM.1, by rw [mainLogs_append, hM.2.1]; rfl, by simp⟩
  · -- l127
    rename_i hpc
    rw [hpc] at hM
    simp only at hM
    simp only [Option.some.injEq] at h
    subst h
    refine inv_main_update hI _ s.mutex _ (by simp [Event.tid]) (by simp [hpc, MPc.todo])
      (Or.inl rfl) (fun _ => rfl)
      (fun _ => hI.barrier (by simp [hpc, MPc.pastBarrier])) ?_
    simp only [MainInv]
    exact Or.inr ⟨trivial, hM.1, by rw [mainLogs_append, hM.2.1]; rfl, by simp [hM.2.2]⟩
  · cases h

theorem inv_step {Config Cmd : Type} {c : Collab Config Cmd} {stage : String}
    {conf : Config} {projects : List String} {s s' : State Cmd} {a : Action}
    (hI : Inv c stage conf projects s) (h : step c stage conf s a = some s') :
    Inv c stage conf projects s' := by
  cases a with
  | main k => exact inv_stepMain hI h
  | worker i => exact inv_stepWorker hI h

theorem inv_of_reachable {Config Cmd : Type} {c : Collab Config Cmd} {stage : String}
    {conf : Config} {projects : List String} {s : State Cmd}
    (h : Reachable c stage conf projects s) : Inv c stage conf projects s := by
  induction h with
  | init => exact inv_init c stage conf projects
  | next a _ hs ih => exact inv_step ih hs

theorem sum_map_set {α : Type} (f : α → Nat) (l : List α) (i : Nat) (a b : α)
    (h : l[i]? = some a) : ((l.set i b).map f).sum + f a = (l.map f).sum + f b := by
  induction l generalizing i with
  | nil => simp at h
  | cons x l ih =>
    cases i with
    | zero =>
      simp only [List.getElem?_cons_zero, Option.some.injEq] at h
      subst h
      simp only [List.set_cons_zero, List.map_cons, List.sum_cons]
      omega
    | succ n =>
      simp only [List.getElem?_cons_succ] at h
      have := ih n h
      simp only [List.set_cons_succ, List.map_cons, List.sum_cons]
      omega

theorem MPc.fuel_mono {n k d : Nat} (m : MPc) (h : n ≤ k + d) : m.fuel n ≤ m.fuel k + d := by
  cases m <;> simp [MPc.fuel] <;> omega

theorem fuel_lt_update {Cmd : Type} (s s' : State Cmd) (d : Nat) {i : Nat} {w : Worker Cmd}
    {pc : WPc Cmd} (hw : s.workers[i]? = some w)
    (hws : s'.workers = s.workers.set i { w with pc := pc }) (hm : s'.mpc = s.mpc)
    (hlen : s'.errors.length ≤ s.errors.length + d) (hf : pc.fuel + d < w.pc.fuel) :
    fuel s' < fuel s := by
  have h1 := sum_map_set (fun w : Worker Cmd => w.pc.fuel) s.workers i w { w with pc := pc } hw
  have h2 := MPc.fuel_mono s.mpc hlen
  simp only [fuel, hws, hm] at h1 ⊢
  omega

theorem fuel_stepWorker {Config Cmd : Type} {c : Collab Config Cmd} {stage : String}
    {conf : Config} {s s' : State Cmd} {i : Nat}
    (h : stepWorker c stage conf s i = some s') : fuel s' < fuel s := by
  unfold stepWorker at h
  split at h
  · cases h
  split at h
  · cases h
  rename_i w hw
  split at h <;> rename_i hpc
  all_goals first
    | contradiction
    | (simp only [Option.some.injEq] at h
       subst h
       refine fuel_lt_update s _ 1 hw rfl rfl ?_ ?_
       · exact length_mapSet_le s.errors w.project _
       · simp only [hpc, WPc.fuel]
         omega)
    | (simp only [Option.some.injEq] at h
       subst h
       refine fuel_lt_update s _ 0 hw rfl rfl (Nat.le_refl _) ?_
       simp only [hpc, WPc.fuel]
       omega)
    | (split at h
       all_goals first
         | contradiction
         | (simp only [Option.some.injEq] at h
            subst h
            refine fuel_lt_update s _ 0 hw rfl rfl (Nat.le_refl _) ?_
            simp only [hpc, WPc.fuel]
            omega))

theorem fuel_stepMain {Cmd : Type} {s s' : State Cmd} {k : Nat}
    (h : stepMain s k = some s') : fuel s' < fuel s := by
  unfold stepMain at h
  split at h <;> rename_i hpc
  case h_7 =>
    rename_i kv rest
    simp only [Option.some.injEq] at h
    subst h
    have hlt : k % (kv :: rest).length < (kv :: rest).length := Nat.mod_lt _ (by simp)
    have := List.length_eraseIdx_of_lt hlt
    simp only [fuel, hpc, MPc.fuel, this]
    simp only [List.length_cons]
    omega
  all_goals first
    | contradiction
    | (simp only [Option.some.injEq] at h
       subst h
       simp only [fuel, hpc, MPc.fuel, WPc.fuel, List.map_append, List.sum_append, List.map_cons,
         List.map_nil, List.sum_cons, List.sum_nil, List.length_cons]
       omega)
    | (split at h
       all_goals first
         | contradiction
         | (simp only [Option.some.injEq] at h
            subst h
            simp only [fuel, hpc, MPc.fuel]
            omega))

theorem fuel_step {Config Cmd : Type} {c : Collab Config Cmd} {stage : String}
    {conf : Config} {s s' : State Cmd} {a : Action}
    (h : step c stage conf s a = some s') : fuel s' < fuel s := by
  cases a with
  | main k => exact fuel_stepMain h
  | worker i => exact fuel_stepWorker h

theorem fuel_steps {Config Cmd : Type} {c : Collab Config Cmd} {stage : String}
    {conf : Config} (sched : List Action) {s s' : State Cmd}
    (h : steps c stage conf s sched = some s') : sched.length + fuel s' ≤ fuel s := by
  induction sched generalizing s with
  | nil =>
    simp only [steps, Option.some.injEq] at h
    subst h
    simp
  | cons a as ih =>
    simp only [steps] at h
    split at h
    · rename_i s1 hs1
      have h1 := fuel_step hs1
      have h2 := ih h
      simp only [List.length_cons]
      omega
    · cases h

/-- A goroutine that has not returned can execute its next statement, unless it
stands at a `mutex.Lock()` while the mutex is held. -/
theorem stepWorker_enabled {Config Cmd : Type} (c : Collab Config Cmd) (stage : String)
    (conf : Config) {s : State Cmd} {i : Nat} {w : Worker Cmd}
    (hx : s.mpc.exitCode = none) (hw : s.workers[i]? = some w) (hret : w.pc ≠ .ret)
    (hlock : s.mutex = none ∨ w.pc.holds = true) :
    ∃ s', stepWorker c stage conf s i = some s' := by
  unfold stepWorker
  simp only [hx, Option.isSome_none, Bool.false_eq_true, if_false, hw]
  cases hpc : w.pc with
  | l41 =>
    simp only
    cases c.GetCommand stage w.project conf <;> exact ⟨_, rfl⟩
  | l44 err =>
    rcases hlock with h | h
    · simp only [h, if_true]; exact ⟨_, rfl⟩
    · simp [hpc, WPc.holds] at h
  | l52 cmd =>
    simp only
    rcases hx2 : c.ExecuteCommand stage w.project cmd with ⟨buff, _ | err⟩ <;> exact ⟨_, rfl⟩
  | l55 buff err =>
    rcases hlock with h | h
    · simp only [h, if_true]; exact ⟨_, rfl⟩
    · simp [hpc, WPc.holds] at h
  | ret => exact absurd hpc hret
  | _ => exact ⟨_, rfl⟩

/-- Deadlock freedom: while the process has not terminated, some thread can
execute a statement. -/
theorem progress {Config Cmd : Type} {c : Collab Config Cmd} {stage : String}
    {conf : Config} {projects : List String} {s : State Cmd}
    (hI : Inv c stage conf projects s) (hx : s.mpc.exitCode = none) :
    ∃ a s', step c stage conf s a = some s' := by
  -- the holder of a locked mutex can always move
  have holder : ∀ t, s.mutex = some t → s.mpc.holds = false →
      ∃ a s', step c stage conf s a = some s' := by
    intro t ht hnh
    cases t with
    | main =>
      have := hI.mtxM ht
      rw [hnh] at this
      cases this
    | worker j =>
      obtain ⟨wj, hwj, hh⟩ := hI.mtxW j ht
      have hne : wj.pc ≠ .ret := by
        intro h0
        rw [h0] at hh
        cases hh
      obtain ⟨s', hs'⟩ := stepWorker_enabled c stage conf hx hwj hne (Or.inr hh)
      exact ⟨.worker j, s', hs'⟩
  cases hpc : s.mpc with
  | l38 todo =>
    cases todo <;> exact ⟨.main 0, by simp [step, stepMain, hpc]⟩
  | l67 =>
    by_cases hall : s.entries.all (fun e => decide (e.status ≠ .pending)) = true
    · exact ⟨.main 0, _, by simp only [step, stepMain, hpc, hall, if_true]; rfl⟩
    · rw [List.all_eq_true] at hall
      push_neg at hall
      obtain ⟨e, he, hpend⟩ := hall
      simp only [ne_eq, decide_not, Bool.not_eq_true', decide_eq_false_iff_not, not_not,
        Bool.not_eq_true] at hpend
      obtain ⟨i, hi⟩ := List.mem_iff_getElem?.1 he
      have hil : i < s.workers.length := by
        rw [← hI.len]; exact lt_of_getElem?_eq_some hi
      have hw : s.workers[i]? = some (s.workers[i]) := List.getElem?_eq_getElem hil
      obtain ⟨-, hent, -, -⟩ := hI.wk i _ hw
      rw [hi] at hent
      simp only [Option.some.injEq] at hent
      have hst : (s.workers[i]).pc.status (outcome c stage conf (s.workers[i]).project) =
          .pending := by
        rw [hent] at hpend
        simpa using hpend
      have hne : (s.workers[i]).pc ≠ .ret := by
        intro h0
        rw [h0] at hst
        cases ho : outcome c stage conf (s.workers[i]).project <;>
          simp [WPc.status, Outcome.status, ho] at hst
      cases hm : s.mutex with
      | none =>
        obtain ⟨s', hs'⟩ := stepWorker_enabled c stage conf hx hw hne (Or.inl hm)
        exact ⟨.worker i, s', hs'⟩
      | some t => exact holder t hm (by simp [hpc, MPc.holds])
  | l68 =>
    cases hm : s.mutex with
    | none => exact ⟨.main 0, by simp [step, stepMain, hpc, hm]⟩
    | some t => exact holder t hm (by simp [hpc, MPc.holds])
  | l69 =>
    by_cases h0 : s.errors.length ≠ 0
    · exact ⟨.main 0, by simp [step, stepMain, hpc, h0]⟩
    · exact ⟨.main 0, by simp [step, stepMain, hpc, h0]⟩
  | l70 rest =>
    cases rest <;> exact ⟨.main 0, by simp [step, stepMain, hpc]⟩
  | l73 => exact ⟨.main 0, by simp [step, stepMain, hpc]⟩
  | l75 => exact ⟨.main 0, by simp [step, stepMain, hpc]⟩
  | l76 => exact ⟨.main 0, by simp [step, stepMain, hpc]⟩
  | l127 => exact ⟨.main 0, by simp [step, stepMain, hpc]⟩
  | exited code => simp [hpc, MPc.exitCode] at hx

/-- Every state satisfying the invariant can be run to termination of the
process. -/
theorem can_exit {Config Cmd : Type} {c : Collab Config Cmd} {stage : String}
    {conf : Config} {projects : List String} (n : Nat) :
    ∀ s : State Cmd, fuel s ≤ n → Inv c stage conf projects s →
      ∃ sched s', steps c stage conf s sched = some s' ∧ s'.mpc.exitCode.isSome = true := by
  induction n with
  | zero =>
    intro s hn hI
    cases hx : s.mpc.exitCode with
    | some code => exact ⟨[], s, rfl, by simp [hx]⟩
    | none =>
      obtain ⟨a, s', hs'⟩ := progress hI hx
      have := fuel_step hs'
      omega
  | succ n ih =>
    intro s hn hI
    cases hx : s.mpc.exitCode with
    | some code => exact ⟨[], s, rfl, by simp [hx]⟩
    | none =>
      obtain ⟨a, s1, hs1⟩ := progress hI hx
      have hlt := fuel_step hs1
      obtain ⟨sched, s2, h2, hex⟩ := ih s1 (by omega) (inv_step hI hs1)
      exact ⟨a :: sched, s2, by simp only [steps, hs1, h2], hex⟩

theorem reachable_steps {Config Cmd : Type} {c : Collab Config Cmd} {stage : String}
    {conf : Config} {projects : List String} (sched : List Action) {s s' : State Cmd}
    (hr : Reachable c stage conf projects s) (h : steps c stage conf s sched = some s') :
    Reachable c stage conf projects s' := by
  induction sched generalizing s with
  | nil =>
    simp only [steps, Option.some.injEq] at h
    subst h
    exact hr
  | cons a as ih =>
    simp only [steps] at h
    split at h
    · rename_i s1 hs1
      exact ih (Reachable.next a hr hs1) h
    · cases h

theorem steps_of_reachable {Config Cmd : Type} {c : Collab Config Cmd} {stage : String}
    {conf : Config} {projects : List String} {s : State Cmd}
    (hr : Reachable c stage conf projects s) :
    ∃ sched, steps c stage conf (initState projects) sched = some s := by
  induction hr with
  | init => exact ⟨[], rfl⟩
  | next a _ hs ih =>
    obtain ⟨sched, h⟩ := ih
    refine ⟨sched ++ [a], ?_⟩
    have key : ∀ (l : List Action) (s0 s1 : State Cmd), steps c stage conf s0 l = some s1 →
        ∀ b s2, step c stage conf s1 b = some s2 →
          steps c stage conf s0 (l ++ [b]) = some s2 := by
      intro l
      induction l with
      | nil =>
        intro s0 s1 h01 b s2 hb
        simp only [steps, Option.some.injEq] at h01
        subst h01
        simp only [List.nil_append, steps, hb]
      | cons x xs ihx =>
        intro s0 s1 h01 b s2 hb
        simp only [steps] at h01
        split at h01
        · rename_i sm hsm
          simp only [List.cons_append, steps, hsm]
          exact ihx sm s1 h01 b s2 hb
        · cases h01
    exact key sched _ _ h a _ hs

theorem mem_traceOf {i : Nat} {t : List Event} {ev : Event} :
    ev ∈ traceOf i t ↔ ev ∈ t ∧ ev.tid = .worker i := by
  simp [traceOf, List.mem_filter]

theorem workerLogs_eq_of_traceOf (i : Nat) (t : List Event) :
    workerLogs i t = workerLogs i (traceOf i t) := by
  induction t with
  | nil => rfl
  | cons ev t ih =>
    by_cases h : ev.tid = .worker i
    · have : traceOf i (ev :: t) = ev :: traceOf i t := by simp [traceOf, h]
      rw [this]
      cases ev <;> simp_all [workerLogs, Event.tid]
    · have : traceOf i (ev :: t) = traceOf i t := by simp [traceOf, h]
      rw [this, ← ih]
      cases ev with
      | log t text =>
        cases t with
        | main => simp [workerLogs]
        | worker j =>
          have hji : j ≠ i := fun hji => h (by simp [Event.tid, hji])
          simp [workerLogs, hji]
      | _ => simp [workerLogs]

theorem project_of_worker {Config Cmd : Type} {c : Collab Config Cmd} {stage : String}
    {conf : Config} {projects : List String} {s : State Cmd} {i : Nat} {w : Worker Cmd}
    (hI : Inv c stage conf projects s) (hw : s.workers[i]? = some w) :
    projects[i]? = some w.project := by
  have hi := lt_of_getElem?_eq_some hw
  rw [hI.projs, List.getElem?_append_left (by simpa using hi), List.getElem?_map, hw]
  rfl

theorem worker_of_project {Config Cmd : Type} {c : Collab Config Cmd} {stage : String}
    {conf : Config} {projects : List String} {s : State Cmd} {i : Nat} {p : String}
    (hI : Inv c stage conf projects s) (hp : projects[i]? = some p)
    (hi : i < s.workers.length) :
    ∃ w, s.workers[i]? = some w ∧ w.project = p := by
  refine ⟨s.workers[i], List.getElem?_eq_getElem hi, ?_⟩
  have := project_of_worker hI (List.getElem?_eq_getElem hi)
  rw [hp] at this
  simpa using this.symm

theorem todo_of_pastBarrier {m : MPc} (h : m.pastBarrier = true) : m.todo = [] := by
  cases m <;> simp_all [MPc.pastBarrier, MPc.todo]

theorem pastBarrier_of_exit {m : MPc} (h : m.exitCode.isSome = true) : m.pastBarrier = true := by
  cases m <;> simp_all [MPc.pastBarrier, MPc.exitCode]

theorem length_workers_of_pastBarrier {Config Cmd : Type} {c : Collab Config Cmd}
    {stage : String} {conf : Config} {projects : List String} {s : State Cmd}
    (hI : Inv c stage conf projects s) (hb : s.mpc.pastBarrier = true) :
    s.workers.length = projects.length := by
  have := hI.projs
  rw [todo_of_pastBarrier hb, List.append_nil] at this
  rw [this, List.length_map]

/-- The events of goroutine `i` are always an initial segment of the path
fixed by the outcome of its project. -/
theorem traceOf_initial {Config Cmd : Type} {c : Collab Config Cmd} {stage : String}
    {conf : Config} {projects : List String} {s : State Cmd} {i : Nat} {p : String}
    (hI : Inv c stage conf projects s) (hp : projects[i]? = some p) :
    ∃ n, traceOf i s.trace = (fullPath i p (outcome c stage conf p)).take n := by
  rcases Nat.lt_or_ge i s.workers.length with hi | hi
  · obtain ⟨w, hw, hwp⟩ := worker_of_project hI hp hi
    obtain ⟨-, -, h3, -⟩ := hI.wk i w hw
    rw [hwp] at h3
    exact ⟨_, h3⟩
  · exact ⟨0, by rw [hI.fresh i hi]; rfl⟩

/-- Facts about a goroutine whose entry is no longer pending. -/
theorem terminal_facts {Config Cmd : Type} {c : Collab Config Cmd} {stage : String}
    {conf : Config} {projects : List String} {s : State Cmd} {i : Nat} {p : String} {e : Entry}
    (hI : Inv c stage conf projects s) (hp : projects[i]? = some p)
    (he : s.entries[i]? = some e) (hne : e.status ≠ .pending) :
    e = ⟨entryLabel p, (outcome c stage conf p).status⟩ ∧
    mapGet s.errors p = (outcome c stage conf p).failure ∧
    (traceOf i s.trace = fullPath i p (outcome c stage conf p) ∨
      ∃ buff err, outcome c stage conf p = .execFailed buff err ∧
        traceOf i s.trace = (fullPath i p (outcome c stage conf p)).take 6) := by
  have hi : i < s.workers.length := by
    rw [← hI.len]; exact lt_of_getElem?_eq_some he
  obtain ⟨w, hw, hwp⟩ := worker_of_project hI hp hi
  obtain ⟨h1, h2, h3, h4⟩ := hI.wk i w hw
  rw [hwp] at h1 h2 h3 h4
  rw [he] at h2
  simp only [Option.some.injEq] at h2
  subst h2
  have hnone : (outcome c stage conf p).failure = none → mapGet s.errors p = none := by
    intro hf
    cases hg : mapGet s.errors p with
    | none => rfl
    | some v =>
      have := (hI.reg p v (mem_of_mapGet hg)).1
      rw [hf] at this
      cases this
  cases hpc : w.pc <;> rw [hpc] at h1 h3 h4 hne <;>
    simp only [WPc.status, ne_eq, not_true_eq_false] at hne
  · -- l59
    obtain ⟨err, ho⟩ := h1
    refine ⟨by simp [WPc.status, ho, Outcome.status], ?_, Or.inr ⟨_, err, ho, ?_⟩⟩
    · exact h4 rfl
    · simpa [WPc.pos] using h3
  · -- ret
    refine ⟨rfl, ?_, Or.inl ?_⟩
    · cases hf : (outcome c stage conf p).failure with
      | none => exact hnone hf
      | some v =>
        rw [← hf]
        exact h4 (by simp [WPc.stored, hf])
    · rw [h3]
      cases outcome c stage conf p <;> rfl

/-- Facts about a goroutine that has returned. -/
theorem returned_facts {Config Cmd : Type} {c : Collab Config Cmd} {stage : String}
    {conf : Config} {projects : List String} {s : State Cmd} {i : Nat} {w : Worker Cmd}
    (hI : Inv c stage conf projects s) (hw : s.workers[i]? = some w) (hret : w.pc = .ret) :
    s.entries[i]? = some ⟨entryLabel w.project, (outcome c stage conf w.project).status⟩ ∧
    traceOf i s.trace = fullPath i w.project (outcome c stage conf w.project) := by
  obtain ⟨-, h2, h3, -⟩ := hI.wk i w hw
  rw [hret] at h2 h3
  refine ⟨h2, ?_⟩
  rw [h3]
  cases outcome c stage conf w.project <;> rfl

theorem status_ne_pending (o : Outcome) : o.status ≠ .pending := by
  cases o <;> simp [Outcome.status]

/-- After the barrier every project has a terminal entry. -/
theorem entry_of_pastBarrier {Config Cmd : Type} {c : Collab Config Cmd} {stage : String}
    {conf : Config} {projects : List String} {s : State Cmd} {i : Nat} {p : String}
    (hI : Inv c stage conf projects s) (hb : s.mpc.pastBarrier = true)
    (hp : projects[i]? = some p) :
    ∃ e, s.entries[i]? = some e ∧ e.status ≠ .pending := by
  have hi : i < s.entries.length := by
    rw [hI.len, length_workers_of_pastBarrier hI hb]
    exact lt_of_getElem?_eq_some hp
  exact ⟨s.entries[i], List.getElem?_eq_getElem hi,
    hI.barrier hb _ (List.getElem_mem _)⟩

theorem mapGet_none_of_succeeded {Config Cmd : Type} {c : Collab Config Cmd} {stage : String}
    {conf : Config} {projects : List String} {s : State Cmd} {p : String}
    (hI : Inv c stage conf projects s) (hf : (outcome c stage conf p).failure = none) :
    mapGet s.errors p = none := by
  cases hg : mapGet s.errors p with
  | none => rfl
  | some v =>
    have := (hI.reg p v (mem_of_mapGet hg)).1
    rw [hf] at this
    cases this

theorem stepWorker_mpc {Config Cmd : Type} {c : Collab Config Cmd} {stage : String}
    {conf : Config} {s s' : State Cmd} {i : Nat}
    (h : stepWorker c stage conf s i = some s') : s'.mpc = s.mpc := by
  unfold stepWorker at h
  split at h
  · cases h
  split at h
  · cases h
  split at h
  all_goals first
    | contradiction
    | (simp only [Option.some.injEq] at h
       subst h
       rfl)
    | (split at h
       all_goals first
         | contradiction
         | (simp only [Option.some.injEq] at h
            subst h
            rfl))

/-- Before the barrier, some thread other than the main goroutine leaving
line 67 can move, unless every started goroutine has returned at line 67. -/
theorem progress_before_barrier {Config Cmd : Type} {c : Collab Config Cmd} {stage : String}
    {conf : Config} {projects : List String} {s : State Cmd}
    (hI : Inv c stage conf projects s) (hb : s.mpc.pastBarrier = false)
    (hgo : ¬(s.mpc = .l67 ∧ ∀ w ∈ s.workers, w.pc = .ret)) :
    ∃ a s', step c stage conf s a = some s' ∧ s'.mpc.pastBarrier = false := by
  have hx : s.mpc.exitCode = none := by
    cases hm : s.mpc <;> simp_all [MPc.pastBarrier, MPc.exitCode]
  cases hpc : s.mpc with
  | l38 todo =>
    cases todo with
    | nil =>
      refine ⟨.main 0, { s with mpc := .l67 }, ?_, rfl⟩
      simp only [step, stepMain, hpc]
    | cons p todo =>
      refine ⟨.main 0,
        { s with
          entries := s.entries ++ [⟨entryLabel p, .pending⟩]
          workers := s.workers ++ [⟨p, .l41⟩]
          mpc := .l38 todo
          trace := s.trace ++ [.add s.workers.length (entryLabel p), .go s.workers.length p] },
        ?_, rfl⟩
      simp only [step, stepMain, hpc]
  | l67 =>
    have hgo2 : ¬ ∀ w ∈ s.workers, w.pc = .ret := fun h => hgo ⟨hpc, h⟩
    push_neg at hgo2
    obtain ⟨w, hwm, hne⟩ := hgo2
    obtain ⟨i, hi⟩ := List.mem_iff_getElem?.1 hwm
    have key : ∃ j s', stepWorker c stage conf s j = some s' := by
      cases hm : s.mutex with
      | none =>
        obtain ⟨s', hs'⟩ := stepWorker_enabled c stage conf hx hi hne (Or.inl hm)
        exact ⟨i, s', hs'⟩
      | some t =>
        cases t with
        | main =>
          have := hI.mtxM hm
          simp [hpc, MPc.holds] at this
        | worker j =>
          obtain ⟨wj, hwj, hh⟩ := hI.mtxW j hm
          have hnr : wj.pc ≠ .ret := by
            intro h0
            rw [h0] at hh
            cases hh
          obtain ⟨s', hs'⟩ := stepWorker_enabled c stage conf hx hwj hnr (Or.inr hh)
          exact ⟨j, s', hs'⟩
    obtain ⟨j, s', hs'⟩ := key
    exact ⟨.worker j, s', hs', by rw [stepWorker_mpc hs', hb]⟩
  | _ => simp [hpc, MPc.pastBarrier] at hb

/-- From any state before the barrier, the goroutines can all be run to their
return while the main goroutine waits at line 67. -/
theorem can_return_all {Config Cmd : Type} {c : Collab Config Cmd} {stage : String}
    {conf : Config} {projects : List String} (n : Nat) :
    ∀ s : State Cmd, fuel s ≤ n → Inv c stage conf projects s → s.mpc.pastBarrier = false →
      ∃ sched s', steps c stage conf s sched = some s' ∧ s'.mpc = .l67 ∧
        ∀ w ∈ s'.workers, w.pc = .ret := by
  induction n with
  | zero =>
    intro s hn hI hb
    by_cases hgo : s.mpc = .l67 ∧ ∀ w ∈ s.workers, w.pc = .ret
    · exact ⟨[], s, rfl, hgo.1, hgo.2⟩
    · obtain ⟨a, s', hs', -⟩ := progress_before_barrier hI hb hgo
      have := fuel_step hs'
      omega
  | succ n ih =>
    intro s hn hI hb
    by_cases hgo : s.mpc = .l67 ∧ ∀ w ∈ s.workers, w.pc = .ret
    · exact ⟨[], s, rfl, hgo.1, hgo.2⟩
    · obtain ⟨a, s1, hs1, hb1⟩ := progress_before_barrier hI hb hgo
      have hlt := fuel_step hs1
      obtain ⟨sched, s2, h2, h3, h4⟩ := ih s1 (by omega) (inv_step hI hs1) hb1
      exact ⟨a :: sched, s2, by simp only [steps, hs1, h2], h3, h4⟩

/-- Some schedule of `run` lets every goroutine run to its return. -/
theorem all_return_reachable {Config Cmd : Type} (c : Collab Config Cmd) (stage : String)
    (conf : Config) (projects : List String) :
    ∃ s : State Cmd, Reachable c stage conf projects s ∧
      s.workers.length = projects.length ∧ ∀ w ∈ s.workers, w.pc = .ret := by
  obtain ⟨sched, s, hs, hm, hall⟩ :=
    @can_return_all Config Cmd c stage conf projects
      (fuel (initState projects : State Cmd)) (initState projects) (Nat.le_refl _)
      (inv_init c stage conf projects) rfl
  have hr := reachable_steps sched Reachable.init hs
  refine ⟨s, hr, ?_, hall⟩
  have := (inv_of_reachable hr).projs
  rw [hm] at this
  simp only [MPc.todo, List.append_nil] at this
  rw [this, List.length_map]

/-- Every reachable state can be continued to the termination of the process. -/
theorem exit_reachable {Config Cmd : Type} {c : Collab Config Cmd} {stage : String}
    {conf : Config} {projects : List String} {s : State Cmd}
    (hr : Reachable c stage conf projects s) :
    ∃ s', Reachable c stage conf projects s' ∧ s'.mpc.exitCode.isSome = true ∧
      ∃ sched, steps c stage conf s sched = some s' := by
  obtain ⟨sched, s', hs, hx⟩ := can_exit (fuel s) s (Nat.le_refl _) (inv_of_reachable hr)
  exact ⟨s', reachable_steps sched hr hs, hx, sched, hs⟩

theorem not_mem_trace_of_not_mem_path {Config Cmd : Type} {c : Collab Config Cmd}
    {stage : String} {conf : Config} {projects : List String} {s : State Cmd} {i : Nat}
    {p : String} (hI : Inv c stage conf projects s) (hp : projects[i]? = some p)
    (ev : Event) (htid : ev.tid = .worker i)
    (hnot : ev ∉ fullPath i p (outcome c stage conf p)) : ev ∉ s.trace := by
  intro hmem
  obtain ⟨n, hn⟩ := traceOf_initial hI hp
  have : ev ∈ traceOf i s.trace := mem_traceOf.2 ⟨hmem, htid⟩
  rw [hn] at this
  exact hnot (List.mem_of_mem_take this)

theorem reachable_stateAfter {Config Cmd : Type} (c : Collab Config Cmd) (stage : String)
    (conf : Config) (projects : List String) (sched : List Action) :
    Reachable c stage conf projects (stateAfter c stage conf projects sched : State Cmd) := by
  unfold stateAfter
  cases h : steps c stage conf (initState projects) sched with
  | none => exact Reachable.init
  | some s => exact reachable_steps sched Reachable.init h

/-- C1: a project whose `GetCommand` call fails.  In every reachable state the
goroutine of that project has called neither `ExecuteCommand` nor `Done`; once
the goroutine has returned, or the main goroutine is past the barrier of line
67, its entry is failed, `Fail` has been called, and the error map holds
exactly the resolution error under the project.  Some execution lets every
goroutine return. -/
theorem C1_resolution_failure {Config Cmd : Type} (c : Collab Config Cmd) (stage : String)
    (conf : Config) (projects : List String) (s : State Cmd) (i : Nat) (p : String)
    (e : GoError) (hr : Reachable c stage conf projects s) (hp : projects[i]? = some p)
    (hg : c.GetCommand stage p conf = .error e) :
    Event.executeCommand i ∉ s.trace ∧ Event.done i ∉ s.trace ∧
    ((s.mpc.pastBarrier = true ∨ ∃ w, s.workers[i]? = some w ∧ w.pc = .ret) →
      s.entries[i]? = some ⟨entryLabel p, .failed⟩ ∧ Event.fail i ∈ s.trace ∧
        mapGet s.errors p = some e) ∧
    (∃ s' : State Cmd, Reachable c stage conf projects s' ∧
      s'.workers.length = projects.length ∧ ∀ w ∈ s'.workers, w.pc = .ret) := by
  have hI := inv_of_reachable hr
  have ho := outcome_of_error hg
  refine ⟨?_, ?_, ?_, all_return_reachable c stage conf projects⟩
  · exact not_mem_trace_of_not_mem_path hI hp _ rfl (by simp [ho, fullPath])
  · exact not_mem_trace_of_not_mem_path hI hp _ rfl (by simp [ho, fullPath])
  · intro hfin
    have hterm : ∃ en, s.entries[i]? = some en ∧ en.status ≠ .pending := by
      rcases hfin with hb | ⟨w, hw, hret⟩
      · exact entry_of_pastBarrier hI hb hp
      · have hwp := project_of_worker hI hw
        rw [hp] at hwp
        simp only [Option.some.injEq] at hwp
        obtain ⟨h1, -⟩ := returned_facts hI hw hret
        exact ⟨_, h1, status_ne_pending _⟩
    obtain ⟨en, hen, hne⟩ := hterm
    obtain ⟨h1, h2, h3⟩ := terminal_facts hI hp hen hne
    rw [ho] at h1 h2 h3
    refine ⟨by rw [hen, h1]; rfl, ?_, h2⟩
    rcases h3 with h3 | ⟨b, er, hbad, -⟩
    · have : Event.fail i ∈ traceOf i s.trace := by
        rw [h3]; simp [fullPath]
      exact (mem_traceOf.1 this).1
    · cases hbad

/-- Witness of C1: projects `x` (no command) and `y`, at the end of
`resolveSchedule`: the entry of `x` is failed and the map holds its error. -/
theorem C1_resolution_failure_witness :
    (["x", "y"][0]? = some "x" ∧ unresolved.GetCommand "build" "x" () = .error "no command" ∧
      (stateAfter unresolved "build" () ["x", "y"] resolveSchedule :
        State String).mpc.pastBarrier = true) ∧
    (stateAfter unresolved "build" () ["x", "y"] resolveSchedule : State String).entries[0]? =
      some ⟨entryLabel "x", .failed⟩ ∧
    mapGet (stateAfter unresolved "build" () ["x", "y"] resolveSchedule : State String).errors
      "x" = some "no command" :=
  ⟨⟨rfl, rfl, rfl⟩,
    ((C1_resolution_failure unresolved "build" () ["x", "y"]
      (stateAfter unresolved "build" () ["x", "y"] resolveSchedule) 0 "x" "no command"
      (reachable_stateAfter _ _ _ _ _) rfl rfl).2.2.1 (Or.inl rfl)).1,
    ((C1_resolution_failure unresolved "build" () ["x", "y"]
      (stateAfter unresolved "build" () ["x", "y"] resolveSchedule) 0 "x" "no command"
      (reachable_stateAfter _ _ _ _ _) rfl rfl).2.2.1 (Or.inl rfl)).2.2⟩

theorem workerLogs_take_execFailed (i : Nat) (p buff : String) (err : GoError) (n : Nat) :
    workerLogs i ((fullPath i p (.execFailed buff err)).take n) = [] ∨
    workerLogs i ((fullPath i p (.execFailed buff err)).take n) = [buff] := by
  rcases n with _ | _ | _ | _ | _ | _ | _ | n <;> simp [fullPath, workerLogs]

theorem workerLogs_take_succeeded (i : Nat) (p buff : String) (n : Nat) :
    workerLogs i ((fullPath i p (.succeeded buff)).take n) = [] := by
  rcases n with _ | _ | _ | n <;> simp [fullPath, workerLogs]

/-- Facts about a project whose `GetCommand` call succeeds and whose
`ExecuteCommand` call fails with error `e`, leaving `buff` in the goroutine's
buffer.  In every reachable state the goroutine has not called `Done` and what
it has logged is nothing or exactly `buff`.  Once the goroutine has returned,
its entry is failed, `Fail` has been called, the error map holds exactly `e`
under the project, and the goroutine has logged exactly `buff`.  Past the
barrier of line 67 the entry is failed and the map holds `e`; nothing is said
there about the log.  Some execution lets every goroutine return. -/
theorem execution_failure_facts {Config Cmd : Type} (c : Collab Config Cmd) (stage : String)
    (conf : Config) (projects : List String) (s : State Cmd) (i : Nat) (p : String)
    (cmd : Cmd) (buff : String) (e : GoError)
    (hr : Reachable c stage conf projects s) (hp : projects[i]? = some p)
    (hg : c.GetCommand stage p conf = .ok cmd)
    (hx : c.ExecuteCommand stage p cmd = (buff, some e)) :
    Event.done i ∉ s.trace ∧
    (workerLogs i s.trace = [] ∨ workerLogs i s.trace = [buff]) ∧
    ((∃ w, s.workers[i]? = some w ∧ w.pc = .ret) →
      s.entries[i]? = some ⟨entryLabel p, .failed⟩ ∧ Event.fail i ∈ s.trace ∧
        mapGet s.errors p = some e ∧ workerLogs i s.trace = [buff]) ∧
    (s.mpc.pastBarrier = true →
      s.entries[i]? = some ⟨entryLabel p, .failed⟩ ∧ Event.fail i ∈ s.trace ∧
        mapGet s.errors p = some e) ∧
    (∃ s' : State Cmd, Reachable c stage conf projects s' ∧
      s'.workers.length = projects.length ∧ ∀ w ∈ s'.workers, w.pc = .ret) := by
  have hI := inv_of_reachable hr
  have ho := outcome_of_exec_error hg hx
  have hterm : ∀ en, s.entries[i]? = some en → en.status ≠ .pending →
      s.entries[i]? = some ⟨entryLabel p, .failed⟩ ∧ Event.fail i ∈ s.trace ∧
        mapGet s.errors p = some e := by
    intro en hen hne
    obtain ⟨h1, h2, h3⟩ := terminal_facts hI hp hen hne
    rw [ho] at h1 h2 h3
    refine ⟨by rw [hen, h1]; rfl, ?_, h2⟩
    have : Event.fail i ∈ traceOf i s.trace := by
      rcases h3 with h3 | ⟨b, er, -, h3⟩ <;>
      · rw [h3]; simp [fullPath]
    exact (mem_traceOf.1 this).1
  refine ⟨?_, ?_, ?_, ?_, all_return_reachable c stage conf projects⟩
  · exact not_mem_trace_of_not_mem_path hI hp _ rfl (by simp [ho, fullPath])
  · obtain ⟨n, hn⟩ := traceOf_initial hI hp
    rw [workerLogs_eq_of_traceOf, hn, ho]
    exact workerLogs_take_execFailed i p buff e n
  · rintro ⟨w, hw, hret⟩
    have hwp := project_of_worker hI hw
    rw [hp] at hwp
    simp only [Option.some.injEq] at hwp
    obtain ⟨h1, h2⟩ := returned_facts hI hw hret
    obtain ⟨a1, a2, a3⟩ := hterm _ h1 (status_ne_pending _)
    refine ⟨a1, a2, a3, ?_⟩
    rw [workerLogs_eq_of_traceOf, h2, ← hwp, ho]
    simp [fullPath, workerLogs]
  · intro hb
    obtain ⟨en, hen, hne⟩ := entry_of_pastBarrier hI hb hp
    exact hterm en hen hne

/-- C2, evaluated on the scenario under `raceSchedule`.  `GetCommand` succeeds
for `b` and `ExecuteCommand` fails with error `exit status 2`, leaving `boom`
in the buffer of the goroutine.  When the process has exited with status 1 the
entry of `b` is failed and the error map holds `exit status 2` under `b`, but
the goroutine of `b` has logged nothing: it still stands at line 59 with its
buffer. -/
theorem C2_output_lost :
    scenario.GetCommand "build" "b" () = .ok "make b" ∧
    scenario.ExecuteCommand "build" "b" "make b" = ("boom", some "exit status 2") ∧
    (steps scenario "build" () (initState ["a", "b", "c"]) raceSchedule).isSome = true ∧
    (stateAfter scenario "build" () ["a", "b", "c"] raceSchedule : State String).mpc.exitCode =
      some 1 ∧
    (stateAfter scenario "build" () ["a", "b", "c"] raceSchedule : State String).entries[1]? =
      some ⟨"Project: b", .failed⟩ ∧
    mapGet (stateAfter scenario "build" () ["a", "b", "c"] raceSchedule : State String).errors
      "b" = some "exit status 2" ∧
    workerLogs 1 (stateAfter scenario "build" () ["a", "b", "c"] raceSchedule :
      State String).trace = [] ∧
    workerLogs 1 (stateAfter scenario "build" () ["a", "b", "c"] raceSchedule :
      State String).trace ≠ ["boom"] := by
  refine ⟨rfl, rfl, rfl, rfl, rfl, rfl, rfl, ?_⟩
  decide

/-- C3: a project whose `GetCommand` and `ExecuteCommand` calls both succeed.
In every reachable state the goroutine has not called `Fail`, has stored
nothing in the error map, has logged nothing, and the map has no key for the
project.  Once the goroutine has returned, or the main goroutine is past the
barrier of line 67, the entry is done and `Done` has been called.  Some
execution lets every goroutine return. -/
theorem C3_success {Config Cmd : Type} (c : Collab Config Cmd) (stage : String)
    (conf : Config) (projects : List String) (s : State Cmd) (i : Nat) (p : String)
    (cmd : Cmd) (buff : String)
    (hr : Reachable c stage conf projects s) (hp : projects[i]? = some p)
    (hg : c.GetCommand stage p conf = .ok cmd)
    (hx : c.ExecuteCommand stage p cmd = (buff, none)) :
    Event.fail i ∉ s.trace ∧
    (∀ q err, Event.store (.worker i) q err ∉ s.trace) ∧
    mapGet s.errors p = none ∧
    workerLogs i s.trace = [] ∧
    ((s.mpc.pastBarrier = true ∨ ∃ w, s.workers[i]? = some w ∧ w.pc = .ret) →
      s.entries[i]? = some ⟨entryLabel p, .done⟩ ∧ Event.done i ∈ s.trace) ∧
    (∃ s' : State Cmd, Reachable c stage conf projects s' ∧
      s'.workers.length = projects.length ∧ ∀ w ∈ s'.workers, w.pc = .ret) := by
  have hI := inv_of_reachable hr
  have ho := outcome_of_exec_ok hg hx
  refine ⟨?_, ?_, ?_, ?_, ?_, all_return_reachable c stage conf projects⟩
  · exact not_mem_trace_of_not_mem_path hI hp _ rfl (by simp [ho, fullPath])
  · intro q err
    exact not_mem_trace_of_not_mem_path hI hp _ rfl (by simp [ho, fullPath])
  · exact mapGet_none_of_succeeded hI (by rw [ho]; rfl)
  · obtain ⟨n, hn⟩ := traceOf_initial hI hp
    rw [workerLogs_eq_of_traceOf, hn, ho]
    exact workerLogs_take_succeeded i p buff n
  · intro hfin
    have hterm : ∃ en, s.entries[i]? = some en ∧ en.status ≠ .pending := by
      rcases hfin with hb | ⟨w, hw, hret⟩
      · exact entry_of_pastBarrier hI hb hp
      · have hwp := project_of_worker hI hw
        rw [hp] at hwp
        simp only [Option.some.injEq] at hwp
        obtain ⟨h1, -⟩ := returned_facts hI hw hret
        exact ⟨_, h1, status_ne_pending _⟩
    obtain ⟨en, hen, hne⟩ := hterm
    obtain ⟨h1, h2, h3⟩ := terminal_facts hI hp hen hne
    rw [ho] at h1 h2 h3
    refine ⟨by rw [hen, h1]; rfl, ?_⟩
    rcases h3 with h3 | ⟨b, er, hbad, -⟩
    · have : Event.done i ∈ traceOf i s.trace := by
        rw [h3]; simp [fullPath]
      exact (mem_traceOf.1 this).1
    · cases hbad

/-- Witness of C3: the scenario, at the end of `fullSchedule`: the entry of `a`
is done and the map has no key `a`. -/
theorem C3_success_witness :
    (["a", "b", "c"][0]? = some "a" ∧ scenario.GetCommand "build" "a" () = .ok "make a" ∧
      scenario.ExecuteCommand "build" "a" "make a" = ("ok", none) ∧
      (stateAfter scenario "build" () ["a", "b", "c"] fullSchedule :
        State String).mpc.pastBarrier = true) ∧
    (stateAfter scenario "build" () ["a", "b", "c"] fullSchedule : State String).entries[0]? =
      some ⟨entryLabel "a", .done⟩ ∧
    mapGet (stateAfter scenario "build" () ["a", "b", "c"] fullSchedule : State String).errors
      "a" = none :=
  ⟨⟨rfl, rfl, rfl, rfl⟩,
    ((C3_success scenario "build" () ["a", "b", "c"]
      (stateAfter scenario "build" () ["a", "b", "c"] fullSchedule) 0 "a" "make a" "ok"
      (reachable_stateAfter _ _ _ _ _) rfl rfl rfl).2.2.2.2.1 (Or.inl rfl)).1,
    (C3_success scenario "build" () ["a", "b", "c"]
      (stateAfter scenario "build" () ["a", "b", "c"] fullSchedule) 0 "a" "make a" "ok"
      (reachable_stateAfter _ _ _ _ _) rfl rfl rfl).2.2.1⟩

theorem failure_isSome_iff_failed (o : Outcome) : o.status = .failed ↔ ∃ e, o.failure = some e := by
  cases o <;> simp [Outcome.status, Outcome.failure]

theorem status_done_of_not_failed (o : Outcome) (h : o.status ≠ .failed) : o.status = .done := by
  cases o <;> simp_all [Outcome.status]

theorem mem_keys_iff {m : List (String × GoError)} {k : String} :
    k ∈ m.map Prod.fst ↔ ∃ v, (k, v) ∈ m := by
  simp [List.mem_map]

theorem eq_singleton_of_nodup_keys {m : List (String × GoError)} {k : String} {v : GoError}
    (hnd : (m.map Prod.fst).Nodup) (hall : ∀ x ∈ m, x = (k, v)) (hmem : (k, v) ∈ m) :
    m = [(k, v)] := by
  cases m with
  | nil => simp at hmem
  | cons x t =>
    have hx := hall x (List.mem_cons_self _ _)
    subst hx
    cases t with
    | nil => rfl
    | cons y t2 =>
      have hy := hall y (by simp)
      subst hy
      simp at hnd

/-- Keys of the error map versus failed entries, in a state where every
project has an entry and no entry is pending. -/
theorem keys_facts {Config Cmd : Type} {c : Collab Config Cmd} {stage : String}
    {conf : Config} {projects : List String} {s : State Cmd}
    (hI : Inv c stage conf projects s)
    (hlen : s.entries.length = projects.length)
    (hterm : ∀ en ∈ s.entries, en.status ≠ .pending) :
    (∀ p, p ∈ s.errors.map Prod.fst ↔
      ∃ i : Nat, projects[i]? = some p ∧ s.entries[i]? = some ⟨entryLabel p, .failed⟩) ∧
    (∀ (i : Nat) (p : String), projects[i]? = some p →
      s.entries[i]? = some ⟨entryLabel p, (outcome c stage conf p).status⟩ ∧
      mapGet s.errors p = (outcome c stage conf p).failure) := by
  have hent : ∀ (i : Nat) (p : String), projects[i]? = some p →
      s.entries[i]? = some ⟨entryLabel p, (outcome c stage conf p).status⟩ ∧
      mapGet s.errors p = (outcome c stage conf p).failure := by
    intro i p hp
    have hi : i < s.entries.length := by
      rw [hlen]; exact lt_of_getElem?_eq_some hp
    have hen : s.entries[i]? = some s.entries[i] := List.getElem?_eq_getElem hi
    obtain ⟨h1, h2, -⟩ := terminal_facts hI hp hen (hterm _ (List.getElem_mem _))
    exact ⟨by rw [hen, h1], h2⟩
  refine ⟨fun p => ⟨?_, ?_⟩, hent⟩
  · intro hk
    obtain ⟨v, hv⟩ := mem_keys_iff.1 hk
    obtain ⟨hf, i, w, hw, hwp, -⟩ := hI.reg p v hv
    have hp := project_of_worker hI hw
    rw [hwp] at hp
    refine ⟨i, hp, ?_⟩
    rw [(hent i p hp).1, (failure_isSome_iff_failed _).2 ⟨v, hf⟩]
  · rintro ⟨i, hp, hen⟩
    obtain ⟨h1, h2⟩ := hent i p hp
    rw [hen] at h1
    simp only [Option.some.injEq, Entry.mk.injEq, true_and] at h1
    obtain ⟨v, hv⟩ := (failure_isSome_iff_failed _).1 h1.symm
    rw [hv] at h2
    exact mem_keys_iff.2 ⟨v, mem_of_mapGet h2⟩

/-- C4: in every reachable state in which each project has its entry and no
entry is pending (all goroutines have called `Fail` or `Done`), each key of the
error map is a project of the list, the keys are exactly the projects with a
failed entry, every project that is not a key has a done entry, and no key
occurs twice.  In the scenario (`a`, `b`, `c` with only `b` failing at
execution) such a state has entries done, failed, done and the map holds
exactly `b` with its execution error. -/
theorem C4_registry_keys {Config Cmd : Type} (c : Collab Config Cmd) (stage : String)
    (conf : Config) (projects : List String) (s : State Cmd)
    (hr : Reachable c stage conf projects s)
    (hlen : s.entries.length = projects.length)
    (hterm : ∀ en ∈ s.entries, en.status ≠ .pending) :
    (∀ p ∈ s.errors.map Prod.fst, p ∈ projects) ∧
    (∀ p, p ∈ s.errors.map Prod.fst ↔
      ∃ i : Nat, projects[i]? = some p ∧ s.entries[i]? = some ⟨entryLabel p, .failed⟩) ∧
    (∀ (i : Nat) (p : String), projects[i]? = some p → p ∉ s.errors.map Prod.fst →
      s.entries[i]? = some ⟨entryLabel p, .done⟩) ∧
    (s.errors.map Prod.fst).Nodup ∧
    (∀ t : State String, Reachable scenario "build" () ["a", "b", "c"] t →
      t.entries.length = 3 → (∀ en ∈ t.entries, en.status ≠ .pending) →
      t.entries = [⟨"Project: a", .done⟩, ⟨"Project: b", .failed⟩, ⟨"Project: c", .done⟩] ∧
      t.errors = [("b", "exit status 2")]) := by
  have hI := inv_of_reachable hr
  obtain ⟨hk, hent⟩ := keys_facts hI hlen hterm
  refine ⟨?_, hk, ?_, hI.nodup, ?_⟩
  · intro p hp
    obtain ⟨i, hi, -⟩ := (hk p).1 hp
    exact List.getElem?_mem hi
  · intro i p hp hnk
    obtain ⟨h1, -⟩ := hent i p hp
    rw [h1]
    have : (outcome c stage conf p).status ≠ .failed := by
      intro hf
      exact hnk ((hk p).2 ⟨i, hp, by rw [h1, hf]⟩)
    rw [status_done_of_not_failed _ this]
  · intro t htr htl htt
    have hIt := inv_of_reachable htr
    obtain ⟨hkt, hentt⟩ := keys_facts hIt (by simpa using htl) htt
    have h0 := hentt 0 "a" rfl
    have h1 := hentt 1 "b" rfl
    have h2 := hentt 2 "c" rfl
    constructor
    · obtain ⟨x, y, z, hxyz⟩ := List.length_eq_three.1 htl
      rw [hxyz] at h0 h1 h2
      simp only [List.getElem?_cons_zero, List.getElem?_cons_succ, Option.some.injEq] at h0 h1 h2
      rw [hxyz, h0.1, h1.1, h2.1]
      rfl
    · apply eq_singleton_of_nodup_keys hIt.nodup
      · rintro ⟨q, v⟩ hqv
        obtain ⟨hf, i, w, hw, hwq, -⟩ := hIt.reg q v hqv
        have hq := project_of_worker hIt hw
        rw [hwq] at hq
        have hi : i < 3 := lt_of_getElem?_eq_some hq
        have hqq : q = "a" ∨ q = "b" ∨ q = "c" := by
          rcases i with _ | _ | _ | i
          · left; simpa using hq.symm
          · right; left; simpa using hq.symm
          · right; right; simpa using hq.symm
          · omega
        rcases hqq with rfl | rfl | rfl
        · have : (none : Option GoError) = some v := hf
          cases this
        · have : some "exit status 2" = some v := hf
          simp only [Option.some.injEq] at this
          rw [← this]
        · have : (none : Option GoError) = some v := hf
          cases this
      · exact mem_of_mapGet h1.2

/-- Witness of C4: the scenario at the end of `fullSchedule`: entries done,
failed, done; the only key of the map is `b`. -/
theorem C4_registry_keys_witness :
    ((stateAfter scenario "build" () ["a", "b", "c"] fullSchedule : State String).entries.length
        = ["a", "b", "c"].length ∧
      ∀ en ∈ (stateAfter scenario "build" () ["a", "b", "c"] fullSchedule : State String).entries,
        en.status ≠ .pending) ∧
    ((stateAfter scenario "build" () ["a", "b", "c"] fullSchedule : State String).entries =
        [⟨"Project: a", .done⟩, ⟨"Project: b", .failed⟩, ⟨"Project: c", .done⟩] ∧
      (stateAfter scenario "build" () ["a", "b", "c"] fullSchedule : State String).errors =
        [("b", "exit status 2")]) ∧
    ("b" ∈ (stateAfter scenario "build" () ["a", "b", "c"] fullSchedule :
        State String).errors.map Prod.fst ↔
      ∃ i : Nat, ["a", "b", "c"][i]? = some "b" ∧
        (stateAfter scenario "build" () ["a", "b", "c"] fullSchedule : State String).entries[i]? =
          some ⟨entryLabel "b", .failed⟩) :=
  ⟨⟨rfl, by decide⟩,
    (C4_registry_keys scenario "build" () ["a", "b", "c"]
      (stateAfter scenario "build" () ["a", "b", "c"] fullSchedule)
      (reachable_stateAfter _ _ _ _ _) rfl (by decide)).2.2.2.2 _
      (reachable_stateAfter _ _ _ _ _) rfl (by decide),
    (C4_registry_keys scenario "build" () ["a", "b", "c"]
      (stateAfter scenario "build" () ["a", "b", "c"] fullSchedule)
      (reachable_stateAfter _ _ _ _ _) rfl (by decide)).2.1 "b"⟩

theorem errors_nil_of_no_projects {Config Cmd : Type} {c : Collab Config Cmd} {stage : String}
    {conf : Config} {s : State Cmd} (hI : Inv c stage conf [] s) : s.errors = [] := by
  cases he : s.errors with
  | nil => rfl
  | cons x t =>
    obtain ⟨q, v⟩ := x
    obtain ⟨-, i, w, hw, -, -⟩ := hI.reg q v (by rw [he]; exact List.mem_cons_self _ _)
    have := project_of_worker hI hw
    simp at this

theorem fuel_initState {Cmd : Type} (projects : List String) :
    fuel (initState projects : State Cmd) = 10 * projects.length + 7 := by
  simp [fuel, initState, MPc.fuel]

/-- C5: the end of `run`.  Every reachable state can be continued to the
termination of the process, and no execution has more than
`10 * len(projects) + 7` steps.  When the process has terminated: if the error
map is non-empty the exit status is 1, the messages logged by the main
goroutine are, in some order, exactly one message
`Error with project <project>:` followed by a newline and `<error>` for each
entry of the map, and `run` has not returned; if the map is empty the exit
status is 0, no error line was logged and `run` has returned (its only `return`
is `return nil`).  Whenever `run` has returned the map is empty and no error
line was logged.  With an empty project list the map is always empty. -/
theorem C5_exit_status {Config Cmd : Type} (c : Collab Config Cmd) (stage : String)
    (conf : Config) (projects : List String) (s : State Cmd)
    (hr : Reachable c stage conf projects s) :
    (∃ s' : State Cmd, Reachable c stage conf projects s' ∧ s'.mpc.exitCode.isSome = true ∧
      ∃ sched, steps c stage conf s sched = some s') ∧
    (∀ (sched : List Action) (s0 : State Cmd),
      steps c stage conf (initState projects) sched = some s0 →
        sched.length ≤ 10 * projects.length + 7) ∧
    (∀ code, s.mpc = .exited code →
      (s.errors ≠ [] →
        code = 1 ∧
        (mainLogs s.trace).Perm
          (s.errors.map (fun kv => "Error with project " ++ kv.1 ++ ":\n" ++ kv.2)) ∧
        Event.ret ∉ s.trace) ∧
      (s.errors = [] → code = 0 ∧ mainLogs s.trace = [] ∧ Event.ret ∈ s.trace)) ∧
    (Event.ret ∈ s.trace → s.errors = [] ∧ mainLogs s.trace = []) ∧
    (projects = [] → s.errors = []) := by
  have hI := inv_of_reachable hr
  have hM := hI.mainInv
  unfold MainInv at hM
  refine ⟨exit_reachable hr, ?_, ?_, ?_, ?_⟩
  · intro sched s0 h0
    have := fuel_steps sched h0
    rw [fuel_initState] at this
    omega
  · intro code hcode
    rw [hcode] at hM
    simp only at hM
    rcases hM with ⟨hc, hne, hret, logged, hperm, hlog⟩ | ⟨hc, he, hlog, hret⟩
    · refine ⟨fun _ => ⟨hc, ?_, hret⟩, fun he => absurd he hne⟩
      have hfmt : errorLine = fun kv => "Error with project " ++ kv.1 ++ ":\n" ++ kv.2 := rfl
      rw [hlog, ← hfmt]
      exact hperm.map errorLine
    · exact ⟨fun hne => absurd he hne, fun _ => ⟨hc, hlog, hret⟩⟩
  · intro hret
    cases hpc : s.mpc <;> rw [hpc] at hM <;> simp only at hM
    case l127 => exact ⟨hM.1, hM.2.1⟩
    case exited code =>
      rcases hM with ⟨-, -, hn, -⟩ | ⟨-, he, hlog, -⟩
      · exact absurd hret hn
      · exact ⟨he, hlog⟩
    all_goals first
      | exact absurd hret hM.2
      | exact absurd hret hM.2.1
      | exact absurd hret hM.2.2
  · intro hp
    subst hp
    exact errors_nil_of_no_projects hI

/-- Witness of C5: the scenario at the end of `fullSchedule` has exit status 1
and the main goroutine has logged the one line
`Error with project b:`, newline, `exit status 2`; the run of an empty project
list has exit status 0, no error line, and `run` has returned. -/
theorem C5_exit_status_witness :
    ((stateAfter scenario "build" () ["a", "b", "c"] fullSchedule : State String).mpc =
        .exited 1 ∧
      (stateAfter scenario "build" () ["a", "b", "c"] fullSchedule : State String).errors =
        [("b", "exit status 2")] ∧
      mainLogs (stateAfter scenario "build" () ["a", "b", "c"] fullSchedule :
          State String).trace = ["Error with project b:\nexit status 2"] ∧
      Event.ret ∉ (stateAfter scenario "build" () ["a", "b", "c"] fullSchedule :
        State String).trace) ∧
    ((stateAfter scenario "build" () []
        [.main 0, .main 0, .main 0, .main 0, .main 0, .main 0, .main 0] : State String).mpc =
        .exited 0 ∧
      mainLogs (stateAfter scenario "build" () []
        [.main 0, .main 0, .main 0, .main 0, .main 0, .main 0, .main 0] : State String).trace
        = [] ∧
      Event.ret ∈ (stateAfter scenario "build" () []
        [.main 0, .main 0, .main 0, .main 0, .main 0, .main 0, .main 0] : State String).trace) :=
  ⟨⟨rfl, rfl,
      List.perm_singleton.1
        (show (mainLogs (stateAfter scenario "build" () ["a", "b", "c"] fullSchedule :
            State String).trace).Perm ["Error with project b:\nexit status 2"] from
          (((C5_exit_status scenario "build" () ["a", "b", "c"]
            (stateAfter scenario "build" () ["a", "b", "c"] fullSchedule)
            (reachable_stateAfter _ _ _ _ _)).2.2.1 1 rfl).1 (by decide)).2.1),
      (((C5_exit_status scenario "build" () ["a", "b", "c"]
        (stateAfter scenario "build" () ["a", "b", "c"] fullSchedule)
        (reachable_stateAfter _ _ _ _ _)).2.2.1 1 rfl).1 (by decide)).2.2⟩,
    ⟨rfl,
      (((C5_exit_status scenario "build" () []
        (stateAfter scenario "build" () []
          [.main 0, .main 0, .main 0, .main 0, .main 0, .main 0, .main 0])
        (reachable_stateAfter _ _ _ _ _)).2.2.1 0 rfl).2 rfl).2⟩⟩

theorem executes_iff_resolved {Config Cmd : Type} {c : Collab Config Cmd} {stage : String}
    {conf : Config} {projects : List String} {s : State Cmd} {i : Nat} {p : String} {e : Entry}
    (hI : Inv c stage conf projects s) (hp : projects[i]? = some p)
    (he : s.entries[i]? = some e) (hne : e.status ≠ .pending) :
    Event.executeCommand i ∈ s.trace ↔ (outcome c stage conf p).resolved = true := by
  obtain ⟨-, -, h3⟩ := terminal_facts hI hp he hne
  have hiff : Event.executeCommand i ∈ s.trace ↔ Event.executeCommand i ∈ traceOf i s.trace :=
    ⟨fun h => mem_traceOf.2 ⟨h, rfl⟩, fun h => (mem_traceOf.1 h).1⟩
  rw [hiff]
  rcases h3 with h3 | ⟨b, er, ho, h3⟩
  · rw [h3]
    cases outcome c stage conf p <;> simp [fullPath, Outcome.resolved]
  · rw [h3, ho]
    simp [fullPath, Outcome.resolved]

/-- C6: failure isolation.  Take two runs, with any collaborators,
configurations, stages and project lists, in which project `p` occurs (at
positions `i` and `j`) and for which the collaborators give the same outcome
for `p`.  In any two reachable states in which the entries of `p` are no
longer pending, the two entries are equal, the error maps agree on `p`, and
`ExecuteCommand` has been called for `p` in one run if and only if it has in
the other.  Moreover every reachable state can be continued to the termination
of the process, and then every project has an entry and no entry is pending. -/
theorem C6_failure_isolation {Config1 Cmd1 Config2 Cmd2 : Type}
    (c1 : Collab Config1 Cmd1) (c2 : Collab Config2 Cmd2) (stage1 stage2 : String)
    (conf1 : Config1) (conf2 : Config2) (projects1 projects2 : List String)
    (s1 : State Cmd1) (s2 : State Cmd2) (i j : Nat) (p : String) (e1 e2 : Entry)
    (hr1 : Reachable c1 stage1 conf1 projects1 s1)
    (hr2 : Reachable c2 stage2 conf2 projects2 s2)
    (hp1 : projects1[i]? = some p) (hp2 : projects2[j]? = some p)
    (hagree : outcome c1 stage1 conf1 p = outcome c2 stage2 conf2 p)
    (he1 : s1.entries[i]? = some e1) (hn1 : e1.status ≠ .pending)
    (he2 : s2.entries[j]? = some e2) (hn2 : e2.status ≠ .pending) :
    e1 = e2 ∧ mapGet s1.errors p = mapGet s2.errors p ∧
    (Event.executeCommand i ∈ s1.trace ↔ Event.executeCommand j ∈ s2.trace) ∧
    (∃ s' : State Cmd1, Reachable c1 stage1 conf1 projects1 s' ∧
      s'.mpc.exitCode.isSome = true ∧ (∃ sched, steps c1 stage1 conf1 s1 sched = some s') ∧
      s'.entries.length = projects1.length ∧ ∀ en ∈ s'.entries, en.status ≠ .pending) := by
  have hI1 := inv_of_reachable hr1
  have hI2 := inv_of_reachable hr2
  obtain ⟨a1, a2, -⟩ := terminal_facts hI1 hp1 he1 hn1
  obtain ⟨b1, b2, -⟩ := terminal_facts hI2 hp2 he2 hn2
  refine ⟨by rw [a1, b1, hagree], by rw [a2, b2, hagree], ?_, ?_⟩
  · rw [executes_iff_resolved hI1 hp1 he1 hn1, executes_iff_resolved hI2 hp2 he2 hn2, hagree]
  · obtain ⟨s', hr', hx, hsched⟩ := exit_reachable hr1
    have hI' := inv_of_reachable hr'
    have hb := pastBarrier_of_exit hx
    exact ⟨s', hr', hx, hsched, by rw [hI'.len, length_workers_of_pastBarrier hI' hb],
      hI'.barrier hb⟩

/-- Witness of C6: project `b` in the scenario and in a run where `a` and `c`
fail instead of succeeding: the entry of `b` and its map entry are the same. -/
theorem C6_failure_isolation_witness :
    (outcome scenario "build" () "b" = outcome scenarioOther "build" () "b" ∧
      (stateAfter scenario "build" () ["a", "b", "c"] fullSchedule : State String).entries[1]? =
        some ⟨"Project: b", .failed⟩ ∧
      (stateAfter scenarioOther "build" () ["a", "b", "c"]
        [.main 0, .main 0, .main 0, .worker 1, .worker 1, .worker 1, .worker 1, .worker 1,
          .worker 1] : State String).entries[1]? = some ⟨"Project: b", .failed⟩) ∧
    mapGet (stateAfter scenario "build" () ["a", "b", "c"] fullSchedule : State String).errors "b"
      = mapGet (stateAfter scenarioOther "build" () ["a", "b", "c"]
        [.main 0, .main 0, .main 0, .worker 1, .worker 1, .worker 1, .worker 1, .worker 1,
          .worker 1] : State String).errors "b" :=
  ⟨⟨rfl, rfl, rfl⟩,
    (C6_failure_isolation scenario scenarioOther "build" "build" () () ["a", "b", "c"]
      ["a", "b", "c"] (stateAfter scenario "build" () ["a", "b", "c"] fullSchedule)
      (stateAfter scenarioOther "build" () ["a", "b", "c"]
        [.main 0, .main 0, .main 0, .worker 1, .worker 1, .worker 1, .worker 1, .worker 1,
          .worker 1])
      1 1 "b" ⟨"Project: b", .failed⟩ ⟨"Project: b", .failed⟩
      (reachable_stateAfter _ _ _ _ _) (reachable_stateAfter _ _ _ _ _) rfl rfl rfl
      rfl (by decide) rfl (by decide)).2.1⟩

theorem rangeOrder_perm {α : Type} (choices : List Nat) (l : List α) :
    (rangeOrder choices l).Perm l := by
  induction choices generalizing l with
  | nil => simp [rangeOrder]
  | cons k ks ih =>
    cases l with
    | nil => simp [rangeOrder]
    | cons x xs =>
      simp only [rangeOrder]
      have hlt : k % (x :: xs).length < (x :: xs).length := Nat.mod_lt _ (by simp)
      exact ((ih _).cons _).trans (perm_getD_cons_eraseIdx (x :: xs) _ x hlt)

theorem fill_loop (ks : List String) :
    ∀ (pre : List String) (m : Nat), ks.length ≤ m →
      (ks.foldl (fun (acc : List String × Nat) k => (acc.1.set acc.2 k, acc.2 + 1))
        (pre ++ List.replicate m "", pre.length)).1 =
      pre ++ ks ++ List.replicate (m - ks.length) "" := by
  induction ks with
  | nil => intro pre m _; simp
  | cons k ks ih =>
    intro pre m hm
    simp only [List.length_cons] at hm
    obtain ⟨m', rfl⟩ : ∃ m', m = m' + 1 := ⟨m - 1, by omega⟩
    have hset : (pre ++ List.replicate (m' + 1) "").set pre.length k =
        (pre ++ [k]) ++ List.replicate m' "" := by
      simp [List.set_append, List.replicate_succ]
    have hlen : pre.length + 1 = (pre ++ [k]).length := by simp
    simp only [List.foldl_cons, hset, hlen]
    rw [ih (pre ++ [k]) m' (by omega)]
    simp

theorem allProjects_eq {Settings : Type} (choices : List Nat) (conf : Config Settings) :
    allProjects choices conf = rangeOrder choices (conf.Projects.map Prod.fst) := by
  have hl : (rangeOrder choices (conf.Projects.map Prod.fst)).length = conf.Projects.length := by
    rw [(rangeOrder_perm choices _).length_eq, List.length_map]
  have := fill_loop (rangeOrder choices (conf.Projects.map Prod.fst)) [] conf.Projects.length
    (by rw [hl])
  simp only [List.nil_append, List.length_nil, hl, Nat.sub_self, List.replicate_zero,
    List.append_nil] at this
  exact this

theorem lintOrHelp_none (toLower : String → String) (osArgs : List String)
    (h : ∀ v ∈ osArgs, toLower v ≠ "lint" ∧ toLower v ≠ "help") :
    lintOrHelp toLower osArgs = none := by
  induction osArgs with
  | nil => rfl
  | cons v vs ih =>
    have hv := h v (List.mem_cons_self _ _)
    simp only [lintOrHelp, hv.1, hv.2, if_false]
    exact ih (fun u hu => h u (List.mem_cons_of_mem _ hu))

/-- C7: when the configuration loads, the stage is not empty and no element of
`os.Args` lower-cases to `lint` or `help`, `main` calls `run` with the given
stage and configuration.  If no project was given, the project list is a
permutation of the keys of `conf.Projects`, of length `len(conf.Projects)`, and
(the keys of a map being distinct) holds every key exactly once; if at least one
project was given, the list is the user's list unchanged. -/
theorem C7_project_list {Settings : Type}
    (ReadConfig : String → Except GoError (Config Settings)) (toLower : String → String)
    (args : Arguments) (osArgs : List String) (choices : List Nat) (conf : Config Settings)
    (hconf : ReadConfig args.ConfigPath = .ok conf) (hstage : args.Stage ≠ "")
    (hlh : ∀ v ∈ osArgs, toLower v ≠ "lint" ∧ toLower v ≠ "help") :
    (args.Projects = [] →
      ∃ ps, main ReadConfig toLower args osArgs choices = .run args.Stage ps conf ∧
        ps.Perm (conf.Projects.map Prod.fst) ∧ ps.length = conf.Projects.length ∧
        (∀ k, k ∈ ps ↔ k ∈ conf.Projects.map Prod.fst) ∧
        ((conf.Projects.map Prod.fst).Nodup → ps.Nodup)) ∧
    (args.Projects ≠ [] →
      main ReadConfig toLower args osArgs choices = .run args.Stage args.Projects conf) := by
  have hmain : main ReadConfig toLower args osArgs choices =
      .run args.Stage
        (if args.Projects.length = 0 then allProjects choices conf else args.Projects) conf := by
    simp only [main, hconf, hstage, if_false, lintOrHelp_none toLower osArgs hlh]
  constructor
  · intro hnil
    have hp := rangeOrder_perm choices (conf.Projects.map Prod.fst)
    refine ⟨rangeOrder choices (conf.Projects.map Prod.fst), ?_, hp, ?_, ?_, ?_⟩
    · rw [hmain, hnil, allProjects_eq]
      rfl
    · rw [hp.length_eq, List.length_map]
    · intro k
      exact hp.mem_iff
    · intro hnd
      exact hp.nodup_iff.2 hnd
  · intro hne
    rw [hmain]
    have : args.Projects.length ≠ 0 := by
      intro h0
      exact hne (List.length_eq_zero.1 h0)
    simp only [this, if_false]

/-- Witness of C7: with no project given and the runtime visiting `web` first,
`run` receives `web`, `api`; with `api` given, `run` receives `api`. -/
theorem C7_project_list_witness :
    (main (fun _ => .ok sampleConfig) asciiLower ⟨"jules.toml", "build", []⟩
        ["jules", "Build"] [1] = .run "build" ["web", "api"] sampleConfig) ∧
    (main (fun _ => .ok sampleConfig) asciiLower ⟨"jules.toml", "build", ["api"]⟩
        ["jules", "Build", "api"] [1] = .run "build" ["api"] sampleConfig) :=
  ⟨by
      obtain ⟨ps, h1, -⟩ := (C7_project_list (fun _ => .ok sampleConfig) asciiLower
        ⟨"jules.toml", "build", []⟩ ["jules", "Build"] [1] sampleConfig rfl (by decide)
        (by decide)).1 rfl
      rw [h1]
      have h2 : main (fun _ => .ok sampleConfig) asciiLower ⟨"jules.toml", "build", []⟩
          ["jules", "Build"] [1] = .run "build" ["web", "api"] sampleConfig := rfl
      rw [h2] at h1
      exact h1.symm,
    (C7_project_list (fun _ => .ok sampleConfig) asciiLower
      ⟨"jules.toml", "build", ["api"]⟩ ["jules", "Build", "api"] [1] sampleConfig rfl (by decide)
      (by decide)).2 (by decide)⟩

/-- Counterexample to C8 as stated: with an empty stage, the invocation with
a configuration that loads shows the usage and exits with status 0, the one
with a configuration that does not load shows no usage and exits with status
1. -/
theorem C8_counterexample :
    (main readOk asciiLower noStage ["jules"] []).showsUsage = true ∧
    (main readOk asciiLower noStage ["jules"] []).exitStatus = some 0 ∧
    (main readFails asciiLower noStage ["jules"] []).showsUsage = false ∧
    (main readFails asciiLower noStage ["jules"] []).exitStatus = some 1 := by
  refine ⟨rfl, rfl, rfl, rfl⟩

/-- C8 amended: when the stage is empty, `run` is never called; if `ReadConfig`
succeeds `main` shows the usage and returns (exit status 0); if `ReadConfig`
fails `main` stops at `log.Fatal` with that error (exit status 1), before the
stage is looked at, and shows no usage. -/
theorem C8_empty_stage {Settings : Type}
    (ReadConfig : String → Except GoError (Config Settings)) (toLower : String → String)
    (args : Arguments) (osArgs : List String) (choices : List Nat)
    (hstage : args.Stage = "") :
    (main ReadConfig toLower args osArgs choices).callsRun = false ∧
    (∀ conf, ReadConfig args.ConfigPath = .ok conf →
      main ReadConfig toLower args osArgs choices = .usage ∧
      (main ReadConfig toLower args osArgs choices).exitStatus = some 0) ∧
    (∀ e, ReadConfig args.ConfigPath = .error e →
      main ReadConfig toLower args osArgs choices = .fatal e ∧
      (main ReadConfig toLower args osArgs choices).showsUsage = false ∧
      (main ReadConfig toLower args osArgs choices).exitStatus = some 1) := by
  refine ⟨?_, ?_, ?_⟩
  · cases h : ReadConfig args.ConfigPath <;> simp [main, h, hstage, MainResult.callsRun]
  · intro conf h
    simp [main, h, hstage, MainResult.exitStatus]
  · intro e h
    simp [main, h, MainResult.exitStatus, MainResult.showsUsage]

/-- Witness of C8 amended: the invocation without a stage, with a
configuration that loads. -/
theorem C8_empty_stage_witness :
    noStage.Stage = "" ∧
    (main readOk asciiLower noStage ["jules"] []).callsRun = false ∧
    main readOk asciiLower noStage ["jules"] [] = .usage :=
  ⟨rfl,
    (C8_empty_stage readOk asciiLower noStage ["jules"] [] rfl).1,
    ((C8_empty_stage readOk asciiLower noStage ["jules"] [] rfl).2.1 sampleConfig rfl).1⟩

theorem errors_nil_iff {Config Cmd : Type} {c : Collab Config Cmd} {stage : String}
    {conf : Config} {projects : List String} {s : State Cmd}
    (hI : Inv c stage conf projects s) (hb : s.mpc.pastBarrier = true) :
    s.errors = [] ↔ ∀ p ∈ projects, (outcome c stage conf p).failure = none := by
  constructor
  · intro he p hp
    obtain ⟨i, hi⟩ := List.mem_iff_getElem?.1 hp
    obtain ⟨en, hen, hne⟩ := entry_of_pastBarrier hI hb hi
    obtain ⟨-, h2, -⟩ := terminal_facts hI hi hen hne
    rw [← h2, he]
    rfl
  · intro hall
    cases he : s.errors with
    | nil => rfl
    | cons x t =>
      obtain ⟨q, v⟩ := x
      obtain ⟨hf, i, w, hw, hwq, -⟩ := hI.reg q v (by rw [he]; exact List.mem_cons_self _ _)
      have hq := project_of_worker hI hw
      rw [hwq] at hq
      rw [hall q (List.getElem?_mem hq)] at hf
      cases hf

/-- Counterexample to C9 as stated: an invocation without a stage, whose
configuration loads, shows the usage and exits with status 0. -/
theorem C9_counterexample :
    noStage.Stage = "" ∧
    (main readOk asciiLower noStage ["jules"] []).showsUsage = true ∧
    (main readOk asciiLower noStage ["jules"] []).exitStatus = some 0 := by
  refine ⟨rfl, rfl, rfl⟩

/-- C9 amended: exit status of the process.  It is 1 when the configuration
cannot be loaded.  It is 0 when the configuration loads and no stage is given
(the usage is shown).  When `main` calls `run`: the process always can run to
termination, and at termination the exit status is 0 if every project
resolved and executed successfully, and 1 if some project failed resolution or
execution. -/
theorem C9_exit_status {Settings Cmd : Type}
    (ReadConfig : String → Except GoError (Config Settings)) (toLower : String → String)
    (args : Arguments) (osArgs : List String) (choices : List Nat) :
    (∀ e, ReadConfig args.ConfigPath = .error e →
      (main ReadConfig toLower args osArgs choices).exitStatus = some 1) ∧
    (∀ conf, ReadConfig args.ConfigPath = .ok conf → args.Stage = "" →
      (main ReadConfig toLower args osArgs choices).showsUsage = true ∧
      (main ReadConfig toLower args osArgs choices).exitStatus = some 0) ∧
    (∀ (stage : String) (projects : List String) (conf : Config Settings)
      (c : Collab (Config Settings) Cmd) (s : State Cmd),
      main ReadConfig toLower args osArgs choices = .run stage projects conf →
      Reachable c stage conf projects s →
        (∃ s' : State Cmd, Reachable c stage conf projects s' ∧
          s'.mpc.exitCode.isSome = true ∧ ∃ sched, steps c stage conf s sched = some s') ∧
        ∀ code, s.mpc = .exited code →
          ((∀ p ∈ projects, (outcome c stage conf p).failure = none) → code = 0) ∧
          ((∃ p ∈ projects, (outcome c stage conf p).failure ≠ none) → code = 1)) := by
  refine ⟨?_, ?_, ?_⟩
  · intro e h
    simp [main, h, MainResult.exitStatus]
  · intro conf h hs
    simp [main, h, hs, MainResult.exitStatus, MainResult.showsUsage]
  · intro stage projects conf c s _ hr
    refine ⟨exit_reachable hr, ?_⟩
    intro code hcode
    have hI := inv_of_reachable hr
    have hb : s.mpc.pastBarrier = true := by rw [hcode]; rfl
    have hiff := errors_nil_iff hI hb
    have hM := hI.mainInv
    unfold MainInv at hM
    rw [hcode] at hM
    simp only at hM
    constructor
    · intro hall
      have he := hiff.2 hall
      rcases hM with ⟨-, hne, -⟩ | ⟨hc, -⟩
      · exact absurd he hne
      · exact hc
    · rintro ⟨p, hp, hf⟩
      rcases hM with ⟨hc, -⟩ | ⟨-, he, -⟩
      · exact hc
      · exact absurd (hiff.1 he p hp) hf

/-- Witness of C9 amended: a configuration that does not load gives exit
status 1; `jules build api`, where `api` succeeds, terminates with status 0. -/
theorem C9_exit_status_witness :
    (main readFails asciiLower noStage ["jules"] []).exitStatus = some 1 ∧
    (main readOk asciiLower ⟨"jules.toml", "build", ["api"]⟩ ["jules", "build", "api"] [] =
        .run "build" ["api"] sampleConfig ∧
      (steps sampleCollab "build" sampleConfig (initState ["api"]) apiSchedule).isSome = true ∧
      ((stateAfter sampleCollab "build" sampleConfig ["api"] apiSchedule :
        State String).mpc.exitCode.getD 7 = 0)) :=
  ⟨(@C9_exit_status Unit String readFails asciiLower noStage ["jules"] []).1 _ rfl,
    rfl, rfl,
    (((C9_exit_status readOk asciiLower ⟨"jules.toml", "build", ["api"]⟩
      ["jules", "build", "api"] []).2.2 "build" ["api"] sampleConfig sampleCollab
      (stateAfter sampleCollab "build" sampleConfig ["api"] apiSchedule) rfl
      (reachable_stateAfter _ _ _ _ _)).2
        ((stateAfter sampleCollab "build" sampleConfig ["api"] apiSchedule :
          State String).mpc.exitCode.getD 7) rfl).1 (by decide)⟩

/-- C10, evaluated on the scenario.  Under `raceSchedule` the process exits
with status 1 after the main goroutine logged the error line of `b`, while the
goroutine of `b` still stands at line 59: its captured output is never logged.
Under `lateSchedule` the captured output is logged after the error line. -/
theorem C10_output_race :
    (steps scenario "build" () (initState ["a", "b", "c"]) raceSchedule).isSome = true ∧
    (stateAfter scenario "build" () ["a", "b", "c"] raceSchedule : State String).mpc =
      .exited 1 ∧
    (stateAfter scenario "build" () ["a", "b", "c"] raceSchedule : State String).workers[1]? =
      some ⟨"b", .l59 "boom"⟩ ∧
    logEvents (stateAfter scenario "build" () ["a", "b", "c"] raceSchedule : State String).trace =
      [.log .main "Error with project b:\nexit status 2"] ∧
    (steps scenario "build" () (initState ["a", "b", "c"]) lateSchedule).isSome = true ∧
    logEvents (stateAfter scenario "build" () ["a", "b", "c"] lateSchedule : State String).trace =
      [.log .main "Error with project b:\nexit status 2", .log (.worker 1) "boom"] := by
  refine ⟨rfl, rfl, rfl, rfl, rfl, rfl⟩

/-- No error line is logged by the main goroutine, and the process does not
exit, before every project has an entry that is no longer pending. -/
theorem aggregate_after_barrier {Config Cmd : Type} {c : Collab Config Cmd} {stage : String}
    {conf : Config} {projects : List String} {s : State Cmd}
    (hr : Reachable c stage conf projects s)
    (h : mainLogs s.trace ≠ [] ∨ s.mpc.exitCode.isSome = true) :
    s.entries.length = projects.length ∧ ∀ en ∈ s.entries, en.status ≠ .pending := by
  have hI := inv_of_reachable hr
  have hb : s.mpc.pastBarrier = true := by
    rcases h with h | h
    · have hM := hI.mainInv
      unfold MainInv at hM
      cases hpc : s.mpc <;> rw [hpc] at hM <;> simp only at hM <;>
        first
          | rfl
          | exact absurd hM.1 h
    · exact pastBarrier_of_exit h
  exact ⟨by rw [hI.len, length_workers_of_pastBarrier hI hb], hI.barrier hb⟩

end Jules

